import Mathlib

/-!
# Verification of the VibeFi Studio on-chain projection core

A shallow embedding, in Lean 4, of the event-projection and
governance-state reconstruction engine of the `vibefi/studio`
repository:

* the chunked log retriever (`getLogsChunked` in `src/eth/registry.ts`,
  `getRawLogsChunkedByTopic` in the governor module),
* the proposal event decoder and projector (`listProposals`),
* the proposal runtime enricher (`loadProposalRuntimeData`,
  `getAccountVoteEvents`),
* the registry event projector (`listDapps`),
* the bundle reference extractor (`extractProposalBundleRef`),
* the content-identifier codec (`encodeRootCid` / `decodeCid`).

Modelling conventions:

* `bigint` block numbers, log indices and 256-bit identifiers become
  `Nat` (all are non-negative and no wrap-around arithmetic is
  performed on them in the source).
* Network reads (`eth_getLogs` range queries, `readContract` calls)
  become explicit function parameters; a failed (rejected) read is
  `Option.none`.  The `try`/`catch` blocks of the source become
  `Option` plumbing.
* ABI decoding (`decodeEventLog`, `decodeFunctionData` of the `viem`
  library, which is a third-party dependency, not code of this
  repository) is passed in as a function parameter returning `Option`
  of the decoded, typed argument record; `none` is the `viem` throw.
* Hex transport strings (`0x…`) that merely carry byte payloads are
  modelled by the byte list they denote (`bytesToHex`/`toBytes` of
  `viem` are mutually inverse transport codecs); UTF-8 encoding and
  decoding of those payloads (`stringToBytes` / `hexToString`) are
  embedded explicitly below (`stringToUtf8`, `utf8BytesToString`).
-/

namespace Studio

/-- A raw log entry as returned by an `eth_getLogs` range query:
`(data, topics)` are kept opaque in the `payload` field (they are only
ever consumed by an ABI decoder, which the embedding passes around as a
function), while `blockNumber` and `logIndex` position the entry in
chain order. -/
structure RawLog where
  blockNumber : Nat
  logIndex : Nat
  payload : Nat
deriving DecidableEq, Repr

/-- `DEFAULT_LOG_CHUNK_SIZE = 45_000n`, the fixed maximum window
increment of both chunked retrievers. -/
def DEFAULT_LOG_CHUNK_SIZE : Nat := 45000

/-- The inclusive windows `[start, end]` generated by the retrieval
loop `for (let start = fromBlock; start <= latestBlock; )` with
`end = start + CHUNK > latest ? latest : start + CHUNK` and
`start = end + 1n`. -/
def chunkWindows (start head chunk : Nat) : List (Nat × Nat) :=
  if _h : start ≤ head then
    let e := if start + chunk > head then head else start + chunk
    (start, e) :: chunkWindows (e + 1) head chunk
  else []
termination_by head + 1 - start
decreasing_by
  split <;> omega

/-- `getLogsChunked` of `src/eth/registry.ts`: reads the chain head,
returns `[]` when `fromBlock` exceeds it, and otherwise concatenates
one range query per window.  `query a b` stands for the
`eth_getLogs` call with `fromBlock = a`, `toBlock = b`. -/
def getLogsChunked (query : Nat → Nat → List RawLog) (head fromBlock : Nat) :
    List RawLog :=
  if fromBlock > head then []
  else (chunkWindows fromBlock head DEFAULT_LOG_CHUNK_SIZE).flatMap
    fun w => query w.1 w.2

/-- `getRawLogsChunkedByTopic` of the governor module
(`src/eth/governor.ts`, also embedded in `StudioUi.tsx`): identical
chunking skeleton; the address/topic filter is part of `query`. -/
def getRawLogsChunkedByTopic (query : Nat → Nat → List RawLog)
    (head fromBlock : Nat) : List RawLog :=
  if fromBlock > head then []
  else (chunkWindows fromBlock head DEFAULT_LOG_CHUNK_SIZE).flatMap
    fun w => query w.1 w.2

/-- C5: when `fromBlock` is strictly beyond the chain head, both
chunked retrievers (used by `listProposals`, `listDapps` and the
account vote scan) return the empty sequence, for every possible range
query — in particular the result does not depend on `query` at all, so
no range query is consulted, and no error is raised (the function is
total). -/
theorem chunked_retrieval_empty_beyond_head
    (query : Nat → Nat → List RawLog) (head fromBlock : Nat)
    (h : head < fromBlock) :
    getLogsChunked query head fromBlock = [] ∧
    getRawLogsChunkedByTopic query head fromBlock = [] := by
  constructor <;> simp [getLogsChunked, getRawLogsChunkedByTopic, h]

/-- Witness for C5 at a concrete input: head `100`, `fromBlock 101`. -/
theorem chunked_retrieval_empty_beyond_head_witness :
    (100 : Nat) < 101 ∧
    (getLogsChunked (fun _ _ => [⟨1, 1, 1⟩]) 100 101 = [] ∧
     getRawLogsChunkedByTopic (fun _ _ => [⟨1, 1, 1⟩]) 100 101 = []) :=
  ⟨by decide,
   chunked_retrieval_empty_beyond_head (fun _ _ => [⟨1, 1, 1⟩]) 100 101
     (by decide)⟩

/-- Membership in the inclusive block range `[a, b]`, the filter that an
`eth_getLogs` range query applies to the chain's log stream. -/
def inRange (a b : Nat) (l : RawLog) : Bool :=
  a ≤ l.blockNumber && l.blockNumber ≤ b

theorem chunkWindows_eq_of_le {start head chunk : Nat} (h : start ≤ head) :
    chunkWindows start head chunk =
      (start, if start + chunk > head then head else start + chunk) ::
        chunkWindows
          ((if start + chunk > head then head else start + chunk) + 1)
          head chunk := by
  rw [chunkWindows]
  simp [h]

theorem chunkWindows_eq_of_gt {start head chunk : Nat} (h : head < start) :
    chunkWindows start head chunk = [] := by
  rw [chunkWindows]
  simp
  omega

/-- On a log stream sorted by block number, an inclusive range filter
splits at any interior cut point into the two sub-range filters,
concatenated in order. -/
theorem sorted_filter_range_split (l : List RawLog)
    (hs : l.Pairwise (fun x y => x.blockNumber ≤ y.blockNumber))
    (s e h : Nat) (hse : s ≤ e) (heh : e ≤ h) :
    l.filter (inRange s h) =
      l.filter (inRange s e) ++ l.filter (inRange (e + 1) h) := by
  induction l with
  | nil => rfl
  | cons x t ih =>
    rw [List.pairwise_cons] at hs
    obtain ⟨hx, ht⟩ := hs
    rcases Nat.lt_or_ge x.blockNumber s with h1 | h1
    · have e1 : inRange s h x = false := by simp [inRange]; omega
      have e2 : inRange s e x = false := by simp [inRange]; omega
      have e3 : inRange (e + 1) h x = false := by simp [inRange]; omega
      simp only [List.filter_cons, e1, e2, e3]
      exact ih ht
    rcases Nat.lt_or_ge h x.blockNumber with h2 | h2
    · have e1 : inRange s h x = false := by simp [inRange]; omega
      have e2 : inRange s e x = false := by simp [inRange]; omega
      have e3 : inRange (e + 1) h x = false := by simp [inRange]; omega
      simp only [List.filter_cons, e1, e2, e3]
      exact ih ht
    rcases le_or_lt x.blockNumber e with h3 | h3
    · have e1 : inRange s h x = true := by simp [inRange]; omega
      have e2 : inRange s e x = true := by simp [inRange]; omega
      have e3 : inRange (e + 1) h x = false := by simp [inRange]; omega
      simp only [List.filter_cons, e1, e2, e3, if_true, cond_true]
      simp [ih ht]
    · have e1 : inRange s h x = true := by simp [inRange]; omega
      have e2 : inRange s e x = false := by simp [inRange]; omega
      have e3 : inRange (e + 1) h x = true := by simp [inRange]; omega
      have hnil : t.filter (inRange s e) = [] := by
        rw [List.filter_eq_nil_iff]
        intro y hy
        have := hx y hy
        simp [inRange]
        omega
      have hcongr : t.filter (inRange s h) = t.filter (inRange (e + 1) h) := by
        apply List.filter_congr
        intro y hy
        have hxy := hx y hy
        have hy2 : e + 1 ≤ y.blockNumber := by omega
        have hy3 : s ≤ y.blockNumber := by omega
        simp [inRange, hy2, hy3]
      simp only [List.filter_cons, e1, e2, e3, hnil, hcongr]
      simp

/-- The per-window range queries, concatenated in window order, return
exactly the single unbounded range query over `[start, head]`, for a
sorted log stream. -/
theorem flatMap_chunkWindows_filter (allLogs : List RawLog)
    (hs : allLogs.Pairwise (fun x y => x.blockNumber ≤ y.blockNumber)) :
    ∀ start head chunk, start ≤ head →
      (chunkWindows start head chunk).flatMap
          (fun w => allLogs.filter (inRange w.1 w.2)) =
        allLogs.filter (inRange start head) := by
  intro start head chunk
  induction start, head, chunk using chunkWindows.induct with
  | case1 start head chunk hle e ih =>
    intro _
    have he : e = if start + chunk > head then head else start + chunk := rfl
    rw [chunkWindows_eq_of_le hle, ← he, List.flatMap_cons]
    by_cases hcut : start + chunk > head
    · have he2 : e = head := by rw [he, if_pos hcut]
      rw [he2, chunkWindows_eq_of_gt (by omega)]
      simp
    · have he2 : e = start + chunk := by rw [he, if_neg hcut]
      rcases le_or_lt (e + 1) head with h2 | h2
      · rw [ih h2, ← sorted_filter_range_split allLogs hs start e head
          (by omega) (by omega)]
      · have he3 : e = head := by omega
        rw [he3, chunkWindows_eq_of_gt (by omega)]
        simp
  | case2 start head chunk hgt =>
    intro h
    omega

/-- Every generated window is well-formed and no wider than the chunk
increment. -/
theorem chunkWindows_width :
    ∀ start head chunk, ∀ w ∈ chunkWindows start head chunk,
      w.1 ≤ w.2 ∧ w.2 - w.1 ≤ chunk := by
  intro start head chunk
  induction start, head, chunk using chunkWindows.induct with
  | case1 start head chunk hle e ih =>
    have he : e = if start + chunk > head then head else start + chunk := rfl
    rw [chunkWindows_eq_of_le hle, ← he]
    intro w hw
    rcases List.mem_cons.mp hw with hw | hw
    · subst hw
      dsimp only
      rw [he]
      constructor
      · split <;> omega
      · split <;> omega
    · exact ih w hw
  | case2 start head chunk hgt =>
    rw [chunkWindows_eq_of_gt (by omega)]
    intro w hw
    simp at hw

/-- Consecutiveness: each window starts exactly one block after its
predecessor ends (hence the windows are pairwise disjoint and in
ascending order). -/
theorem chunkWindows_chain :
    ∀ start head chunk,
      (chunkWindows start head chunk).Chain' (fun w1 w2 => w2.1 = w1.2 + 1) := by
  intro start head chunk
  induction start, head, chunk using chunkWindows.induct with
  | case1 start head chunk hle e ih =>
    have he : e = if start + chunk > head then head else start + chunk := rfl
    rw [chunkWindows_eq_of_le hle, ← he]
    refine List.chain'_cons'.mpr ⟨?_, ih⟩
    intro y hy
    rcases le_or_lt (e + 1) head with h2 | h2
    · rw [chunkWindows_eq_of_le h2] at hy
      simp at hy
      rw [← hy]
    · rw [chunkWindows_eq_of_gt (by omega)] at hy
      simp at hy
  | case2 start head chunk hgt =>
    rw [chunkWindows_eq_of_gt (by omega)]
    simp

/-- Exact coverage: a block is inside some generated window exactly
when it lies in `[start, head]`. -/
theorem chunkWindows_cover :
    ∀ start head chunk b,
      (start ≤ b ∧ b ≤ head) ↔
        ∃ w ∈ chunkWindows start head chunk, w.1 ≤ b ∧ b ≤ w.2 := by
  intro start head chunk
  induction start, head, chunk using chunkWindows.induct with
  | case1 start head chunk hle e ih =>
    intro b
    have he : e = if start + chunk > head then head else start + chunk := rfl
    have heb : start ≤ e ∧ e ≤ head := by
      rw [he]
      constructor
      · split <;> omega
      · split <;> omega
    rw [chunkWindows_eq_of_le hle, ← he]
    constructor
    · intro hb
      rcases le_or_lt b e with h3 | h3
      · exact ⟨(start, e), List.mem_cons_self _ _, hb.1, h3⟩
      · obtain ⟨w, hw, hwb⟩ := (ih b).mp ⟨by omega, hb.2⟩
        exact ⟨w, List.mem_cons_of_mem _ hw, hwb⟩
    · rintro ⟨w, hw, hwb⟩
      rcases List.mem_cons.mp hw with hw | hw
      · subst hw
        dsimp only at hwb
        omega
      · have := (ih b).mpr ⟨w, hw, hwb⟩
        omega
  | case2 start head chunk hgt =>
    intro b
    rw [chunkWindows_eq_of_gt (by omega)]
    simp
    omega

/-- C4: assuming each range query is the pure range restriction of one
fixed chain-ordered log stream, the chunked retrievers return exactly
the single unbounded query over `[fromBlock, head]`; moreover the
generated windows are well-formed and at most `DEFAULT_LOG_CHUNK_SIZE`
wide, consecutive (hence disjoint and ascending), and cover
`[fromBlock, head]` exactly. -/
theorem chunked_retrieval_refines_unbounded
    (allLogs : List RawLog) (query : Nat → Nat → List RawLog)
    (head fromBlock : Nat)
    (hq : ∀ a b, query a b = allLogs.filter (inRange a b))
    (hs : allLogs.Pairwise (fun x y => x.blockNumber ≤ y.blockNumber))
    (hle : fromBlock ≤ head) :
    getLogsChunked query head fromBlock = query fromBlock head ∧
    getRawLogsChunkedByTopic query head fromBlock = query fromBlock head ∧
    (∀ w ∈ chunkWindows fromBlock head DEFAULT_LOG_CHUNK_SIZE,
      w.1 ≤ w.2 ∧ w.2 - w.1 ≤ DEFAULT_LOG_CHUNK_SIZE) ∧
    (chunkWindows fromBlock head DEFAULT_LOG_CHUNK_SIZE).Chain'
      (fun w1 w2 => w2.1 = w1.2 + 1) ∧
    (∀ b, (fromBlock ≤ b ∧ b ≤ head) ↔
      ∃ w ∈ chunkWindows fromBlock head DEFAULT_LOG_CHUNK_SIZE,
        w.1 ≤ b ∧ b ≤ w.2) := by
  have hqf : query = fun a b => allLogs.filter (inRange a b) :=
    funext fun a => funext fun b => hq a b
  subst hqf
  have hmain : (chunkWindows fromBlock head DEFAULT_LOG_CHUNK_SIZE).flatMap
      (fun w => allLogs.filter (inRange w.1 w.2)) =
      allLogs.filter (inRange fromBlock head) :=
    flatMap_chunkWindows_filter allLogs hs fromBlock head
      DEFAULT_LOG_CHUNK_SIZE hle
  refine ⟨?_, ?_, chunkWindows_width _ _ _, chunkWindows_chain _ _ _,
    chunkWindows_cover _ _ _⟩
  · rw [getLogsChunked, if_neg (by omega)]
    exact hmain
  · rw [getRawLogsChunkedByTopic, if_neg (by omega)]
    exact hmain

/-- Witness for C4 at a concrete input: two logs, head `46000`, so the
retrieval generates two windows. -/
theorem chunked_retrieval_refines_unbounded_witness :
    (∀ a b, (fun a b => ([⟨10, 0, 0⟩, ⟨46000, 1, 1⟩] : List RawLog).filter
        (inRange a b)) a b =
      ([⟨10, 0, 0⟩, ⟨46000, 1, 1⟩] : List RawLog).filter (inRange a b)) ∧
    ([⟨10, 0, 0⟩, ⟨46000, 1, 1⟩] : List RawLog).Pairwise
      (fun x y => x.blockNumber ≤ y.blockNumber) ∧
    (1 : Nat) ≤ 46000 ∧
    (getLogsChunked (fun a b => ([⟨10, 0, 0⟩, ⟨46000, 1, 1⟩] :
        List RawLog).filter (inRange a b)) 46000 1 =
      (fun a b => ([⟨10, 0, 0⟩, ⟨46000, 1, 1⟩] : List RawLog).filter
        (inRange a b)) 1 46000) :=
  ⟨fun _ _ => rfl, by decide, by decide,
   (chunked_retrieval_refines_unbounded [⟨10, 0, 0⟩, ⟨46000, 1, 1⟩]
     (fun a b => ([⟨10, 0, 0⟩, ⟨46000, 1, 1⟩] : List RawLog).filter
       (inRange a b)) 46000 1 (fun _ _ => rfl) (by decide) (by decide)).1⟩

/-! ## UTF-8 payload codec

Models the byte-level view of string payloads used by the source
through `viem`: `stringToBytes`/`toBytes` (UTF-8 encode) and
`hexToString` (UTF-8 decode, throwing on invalid byte sequences —
modelled as `none`).  Bytes are `Nat`s below 256; code points are
`Nat`s below `0x110000`. -/

/-- Standard UTF-8 encoding of one code point (1–4 bytes). -/
def utf8EncodeCharNat (c : Nat) : List Nat :=
  if c < 128 then [c]
  else if c < 2048 then [192 + c / 64, 128 + c % 64]
  else if c < 65536 then [224 + c / 4096, 128 + c / 64 % 64, 128 + c % 64]
  else [240 + c / 262144, 128 + c / 4096 % 64, 128 + c / 64 % 64,
    128 + c % 64]

/-- UTF-8 encoding of a code-point sequence. -/
def utf8Encode (cs : List Nat) : List Nat := cs.flatMap utf8EncodeCharNat

/-- The UTF-8 bytes of a string (the model of `viem`'s
`stringToBytes`). -/
def stringToUtf8 (s : String) : List Nat :=
  utf8Encode (s.data.map Char.toNat)

/-- UTF-8 decoding, one byte at a time.  The state is `none` at a
character boundary and `some (acc, k)` while `k` continuation bytes are
still pending for a partially accumulated code point `acc`.  `none` as
a result is a malformed sequence (bad lead byte, stray or missing
continuation byte); on every sequence produced by `utf8Encode` from
valid code points it recovers them exactly
(`utf8Decode_utf8Encode`). Some non-canonical (overlong / surrogate)
sequences decode leniently instead of failing; the theorems below only
ever decode encoder output, where the two behaviours agree. -/
def utf8DecodeAux : Option (Nat × Nat) → List Nat → Option (List Nat)
  | none, [] => some []
  | some _, [] => none
  | none, b :: rest =>
    if b < 128 then (utf8DecodeAux none rest).map (b :: ·)
    else if b < 194 then none
    else if b < 224 then utf8DecodeAux (some (b - 192, 1)) rest
    else if b < 240 then utf8DecodeAux (some (b - 224, 2)) rest
    else if b < 245 then utf8DecodeAux (some (b - 240, 3)) rest
    else none
  | some (acc, 1), b :: rest =>
    if 128 ≤ b ∧ b < 192 then
      (utf8DecodeAux none rest).map ((acc * 64 + (b - 128)) :: ·)
    else none
  | some (acc, k + 2), b :: rest =>
    if 128 ≤ b ∧ b < 192 then
      utf8DecodeAux (some (acc * 64 + (b - 128), k + 1)) rest
    else none
  | some (_, 0), _ :: _ => none

/-- UTF-8 decoding of a whole byte sequence. -/
def utf8Decode (bytes : List Nat) : Option (List Nat) :=
  utf8DecodeAux none bytes

/-- Decoding bytes into a string (the model of `viem`'s
`hexToString`); `none` is the throw the source catches. -/
def utf8BytesToString (bytes : List Nat) : Option String :=
  (utf8Decode bytes).map fun cps => ⟨cps.map Char.ofNat⟩

theorem utf8DecodeAux_encodeChar (c : Nat) (hc : c < 1114112)
    (rest : List Nat) :
    utf8DecodeAux none (utf8EncodeCharNat c ++ rest) =
      (utf8DecodeAux none rest).map (c :: ·) := by
  rw [utf8EncodeCharNat]
  by_cases h1 : c < 128
  · rw [if_pos h1]
    show (if c < 128 then (utf8DecodeAux none rest).map (c :: ·)
      else if c < 194 then none
      else if c < 224 then utf8DecodeAux (some (c - 192, 1)) rest
      else if c < 240 then utf8DecodeAux (some (c - 224, 2)) rest
      else if c < 245 then utf8DecodeAux (some (c - 240, 3)) rest
      else none) = (utf8DecodeAux none rest).map (c :: ·)
    rw [if_pos h1]
  rw [if_neg h1]
  by_cases h2 : c < 2048
  · rw [if_pos h2]
    have g1 : ¬ (192 + c / 64 < 128) := by omega
    have g2 : ¬ (192 + c / 64 < 194) := by omega
    have g3 : 192 + c / 64 < 224 := by omega
    have g4 : 128 ≤ 128 + c % 64 ∧ 128 + c % 64 < 192 := by omega
    have hv : (192 + c / 64 - 192) * 64 + (128 + c % 64 - 128) = c := by
      omega
    show utf8DecodeAux none
        ((192 + c / 64) :: (128 + c % 64) :: rest) = _
    rw [show utf8DecodeAux none ((192 + c / 64) :: (128 + c % 64) :: rest) =
        if 192 + c / 64 < 128 then
          (utf8DecodeAux none ((128 + c % 64) :: rest)).map
            ((192 + c / 64) :: ·)
        else if 192 + c / 64 < 194 then none
        else if 192 + c / 64 < 224 then
          utf8DecodeAux (some (192 + c / 64 - 192, 1)) ((128 + c % 64) :: rest)
        else if 192 + c / 64 < 240 then
          utf8DecodeAux (some (192 + c / 64 - 224, 2)) ((128 + c % 64) :: rest)
        else if 192 + c / 64 < 245 then
          utf8DecodeAux (some (192 + c / 64 - 240, 3)) ((128 + c % 64) :: rest)
        else none from rfl,
      if_neg g1, if_neg g2, if_pos g3,
      show utf8DecodeAux (some (192 + c / 64 - 192, 1)) ((128 + c % 64) :: rest) =
        if 128 ≤ 128 + c % 64 ∧ 128 + c % 64 < 192 then
          (utf8DecodeAux none rest).map
            (((192 + c / 64 - 192) * 64 + (128 + c % 64 - 128)) :: ·)
        else none from rfl,
      if_pos g4]
    simp only [hv]
  rw [if_neg h2]
  by_cases h3 : c < 65536
  · rw [if_pos h3]
    have g1 : ¬ (224 + c / 4096 < 128) := by omega
    have g2 : ¬ (224 + c / 4096 < 194) := by omega
    have g3 : ¬ (224 + c / 4096 < 224) := by omega
    have g4 : 224 + c / 4096 < 240 := by omega
    have g5 : 128 ≤ 128 + c / 64 % 64 ∧ 128 + c / 64 % 64 < 192 := by omega
    have g6 : 128 ≤ 128 + c % 64 ∧ 128 + c % 64 < 192 := by omega
    have hv : ((224 + c / 4096 - 224) * 64 + (128 + c / 64 % 64 - 128)) * 64 +
        (128 + c % 64 - 128) = c := by omega
    show utf8DecodeAux none
        ((224 + c / 4096) :: (128 + c / 64 % 64) :: (128 + c % 64) :: rest) = _
    rw [show utf8DecodeAux none
        ((224 + c / 4096) :: (128 + c / 64 % 64) :: (128 + c % 64) :: rest) =
        if 224 + c / 4096 < 128 then
          (utf8DecodeAux none ((128 + c / 64 % 64) :: (128 + c % 64) :: rest)).map
            ((224 + c / 4096) :: ·)
        else if 224 + c / 4096 < 194 then none
        else if 224 + c / 4096 < 224 then
          utf8DecodeAux (some (224 + c / 4096 - 192, 1))
            ((128 + c / 64 % 64) :: (128 + c % 64) :: rest)
        else if 224 + c / 4096 < 240 then
          utf8DecodeAux (some (224 + c / 4096 - 224, 2))
            ((128 + c / 64 % 64) :: (128 + c % 64) :: rest)
        else if 224 + c / 4096 < 245 then
          utf8DecodeAux (some (224 + c / 4096 - 240, 3))
            ((128 + c / 64 % 64) :: (128 + c % 64) :: rest)
        else none from rfl,
      if_neg g1, if_neg g2, if_neg g3, if_pos g4,
      show utf8DecodeAux (some (224 + c / 4096 - 224, 2))
          ((128 + c / 64 % 64) :: (128 + c % 64) :: rest) =
        if 128 ≤ 128 + c / 64 % 64 ∧ 128 + c / 64 % 64 < 192 then
          utf8DecodeAux
            (some ((224 + c / 4096 - 224) * 64 + (128 + c / 64 % 64 - 128), 1))
            ((128 + c % 64) :: rest)
        else none from rfl,
      if_pos g5,
      show utf8DecodeAux
          (some ((224 + c / 4096 - 224) * 64 + (128 + c / 64 % 64 - 128), 1))
          ((128 + c % 64) :: rest) =
        if 128 ≤ 128 + c % 64 ∧ 128 + c % 64 < 192 then
          (utf8DecodeAux none rest).map
            ((((224 + c / 4096 - 224) * 64 + (128 + c / 64 % 64 - 128)) * 64 +
              (128 + c % 64 - 128)) :: ·)
        else none from rfl,
      if_pos g6]
    simp only [hv]
  · rw [if_neg h3]
    have g1 : ¬ (240 + c / 262144 < 128) := by omega
    have g2 : ¬ (240 + c / 262144 < 194) := by omega
    have g3 : ¬ (240 + c / 262144 < 224) := by omega
    have g4 : ¬ (240 + c / 262144 < 240) := by omega
    have g5 : 240 + c / 262144 < 245 := by omega
    have g6 : 128 ≤ 128 + c / 4096 % 64 ∧ 128 + c / 4096 % 64 < 192 := by
      omega
    have g7 : 128 ≤ 128 + c / 64 % 64 ∧ 128 + c / 64 % 64 < 192 := by omega
    have g8 : 128 ≤ 128 + c % 64 ∧ 128 + c % 64 < 192 := by omega
    have hv : (((240 + c / 262144 - 240) * 64 + (128 + c / 4096 % 64 - 128)) *
        64 + (128 + c / 64 % 64 - 128)) * 64 + (128 + c % 64 - 128) = c := by
      omega
    show utf8DecodeAux none
        ((240 + c / 262144) :: (128 + c / 4096 % 64) :: (128 + c / 64 % 64) ::
          (128 + c % 64) :: rest) = _
    rw [show utf8DecodeAux none
        ((240 + c / 262144) :: (128 + c / 4096 % 64) :: (128 + c / 64 % 64) ::
          (128 + c % 64) :: rest) =
        if 240 + c / 262144 < 128 then
          (utf8DecodeAux none ((128 + c / 4096 % 64) :: (128 + c / 64 % 64) ::
            (128 + c % 64) :: rest)).map ((240 + c / 262144) :: ·)
        else if 240 + c / 262144 < 194 then none
        else if 240 + c / 262144 < 224 then
          utf8DecodeAux (some (240 + c / 262144 - 192, 1))
            ((128 + c / 4096 % 64) :: (128 + c / 64 % 64) ::
              (128 + c % 64) :: rest)
        else if 240 + c / 262144 < 240 then
          utf8DecodeAux (some (240 + c / 262144 - 224, 2))
            ((128 + c / 4096 % 64) :: (128 + c / 64 % 64) ::
              (128 + c % 64) :: rest)
        else if 240 + c / 262144 < 245 then
          utf8DecodeAux (some (240 + c / 262144 - 240, 3))
            ((128 + c / 4096 % 64) :: (128 + c / 64 % 64) ::
              (128 + c % 64) :: rest)
        else none from rfl,
      if_neg g1, if_neg g2, if_neg g3, if_neg g4, if_pos g5,
      show utf8DecodeAux (some (240 + c / 262144 - 240, 3))
          ((128 + c / 4096 % 64) :: (128 + c / 64 % 64) ::
            (128 + c % 64) :: rest) =
        if 128 ≤ 128 + c / 4096 % 64 ∧ 128 + c / 4096 % 64 < 192 then
          utf8DecodeAux
            (some ((240 + c / 262144 - 240) * 64 + (128 + c / 4096 % 64 - 128),
              2))
            ((128 + c / 64 % 64) :: (128 + c % 64) :: rest)
        else none from rfl,
      if_pos g6,
      show utf8DecodeAux
          (some ((240 + c / 262144 - 240) * 64 + (128 + c / 4096 % 64 - 128),
            2))
          ((128 + c / 64 % 64) :: (128 + c % 64) :: rest) =
        if 128 ≤ 128 + c / 64 % 64 ∧ 128 + c / 64 % 64 < 192 then
          utf8DecodeAux
            (some (((240 + c / 262144 - 240) * 64 +
              (128 + c / 4096 % 64 - 128)) * 64 + (128 + c / 64 % 64 - 128),
              1))
            ((128 + c % 64) :: rest)
        else none from rfl,
      if_pos g7,
      show utf8DecodeAux
          (some (((240 + c / 262144 - 240) * 64 + (128 + c / 4096 % 64 - 128)) *
            64 + (128 + c / 64 % 64 - 128), 1))
          ((128 + c % 64) :: rest) =
        if 128 ≤ 128 + c % 64 ∧ 128 + c % 64 < 192 then
          (utf8DecodeAux none rest).map
            (((((240 + c / 262144 - 240) * 64 + (128 + c / 4096 % 64 - 128)) *
              64 + (128 + c / 64 % 64 - 128)) * 64 + (128 + c % 64 - 128)) :: ·)
        else none from rfl,
      if_pos g8]
    simp only [hv]

theorem utf8Decode_utf8Encode (cs : List Nat)
    (h : ∀ c ∈ cs, c < 1114112) :
    utf8Decode (utf8Encode cs) = some cs := by
  induction cs with
  | nil => rfl
  | cons c t ih =>
    rw [utf8Encode, List.flatMap_cons]
    rw [show utf8Decode (utf8EncodeCharNat c ++ t.flatMap utf8EncodeCharNat) =
        utf8DecodeAux none (utf8EncodeCharNat c ++ t.flatMap utf8EncodeCharNat)
        from rfl,
      utf8DecodeAux_encodeChar c (h c (List.mem_cons_self _ _)),
      show utf8DecodeAux none (t.flatMap utf8EncodeCharNat) =
        utf8Decode (utf8Encode t) from rfl,
      ih fun x hx => h x (List.mem_cons_of_mem _ hx)]
    rfl

theorem char_toNat_lt (c : Char) : c.toNat < 1114112 := by
  rcases c.valid with h | h
  · exact Nat.lt_trans h (by decide)
  · exact h.2

/-- Round trip: UTF-8 decoding inverts UTF-8 encoding on every
string. -/
theorem utf8BytesToString_stringToUtf8 (s : String) :
    utf8BytesToString (stringToUtf8 s) = some s := by
  have h : ∀ c ∈ s.data.map Char.toNat, c < 1114112 := by
    intro c hc
    obtain ⟨ch, _, rfl⟩ := List.mem_map.mp hc
    exact char_toNat_lt ch
  rw [utf8BytesToString, stringToUtf8, utf8Decode_utf8Encode _ h]
  dsimp only [Option.map]
  congr 1
  rw [List.map_map]
  have : s.data.map (Char.ofNat ∘ Char.toNat) = s.data.map id := by
    apply List.map_congr_left
    intro a _
    exact Char.ofNat_toNat a
  rw [this, List.map_id]

/-! ## Content-identifier codec (`encodeRootCid` / `decodeCid` of
`src/eth/registry.ts`) -/

/-- `MAX_ROOT_CID_BYTES = 4096`. -/
def MAX_ROOT_CID_BYTES : Nat := 4096

/-- A hexadecimal digit, per the `viem` `isHex` regular expression
`^0x[0-9a-fA-F]*$`. -/
def isHexDigitChar (ch : Char) : Bool :=
  (48 ≤ ch.toNat ∧ ch.toNat ≤ 57) ∨ (97 ≤ ch.toNat ∧ ch.toNat ≤ 102) ∨
    (65 ≤ ch.toNat ∧ ch.toNat ≤ 70)

/-- `viem`'s `isHex` (strict): the whole string is `0x` followed by hex
digits. -/
def isHexString (s : String) : Bool :=
  match s.data with
  | '0' :: 'x' :: rest => rest.all isHexDigitChar
  | _ => false

/-- JavaScript `String.prototype.trim`: strips leading and trailing
whitespace (the usual ASCII whitespace plus NBSP, BOM and the Unicode
line separators; exotic Unicode space code points behave likewise and
are omitted from the model). -/
def isJsWhitespace (ch : Char) : Bool :=
  ch.toNat ∈ [9, 10, 11, 12, 13, 32, 160, 8232, 8233, 65279]

/-- The model of JavaScript `input.trim()`. -/
def jsTrim (s : String) : String :=
  ⟨((s.data.dropWhile isJsWhitespace).reverse.dropWhile
      isJsWhitespace).reverse⟩

/-- Lowercase hex digit of a value below 16 (`viem` `bytesToHex`
emits lowercase). -/
def hexDigitOfNat (n : Nat) : Char :=
  if n < 10 then Char.ofNat (48 + n) else Char.ofNat (87 + n)

/-- The `0x…` rendering of a byte list (`viem` `bytesToHex`), used by
the decode fallbacks that return the raw hex string. -/
def hexOfBytes (bytes : List Nat) : String :=
  ⟨'0' :: 'x' ::
    bytes.flatMap fun b => [hexDigitOfNat (b / 16), hexDigitOfNat (b % 16)]⟩

/-- Numeric value of a hex digit (0 for non-digits, which `hexToBytes`
never sees behind the `isHex` guard). -/
def hexDigitVal (ch : Char) : Nat :=
  if 48 ≤ ch.toNat ∧ ch.toNat ≤ 57 then ch.toNat - 48
  else if 97 ≤ ch.toNat ∧ ch.toNat ≤ 102 then ch.toNat - 87
  else if 65 ≤ ch.toNat ∧ ch.toNat ≤ 70 then ch.toNat - 55
  else 0

def hexPairs : List Char → List Nat
  | d1 :: d2 :: rest => (16 * hexDigitVal d1 + hexDigitVal d2) :: hexPairs rest
  | _ => []

/-- `viem` `toBytes` on a `0x…` string (odd-length digit runs padded on
the left); only reached by `encodeRootCid` behind its `isHex` guard and
unused by the theorems below, which all exclude the hex fast path. -/
def hexToBytes (s : String) : List Nat :=
  hexPairs
    (match s.data with
      | '0' :: 'x' :: rest =>
        if rest.length % 2 = 1 then '0' :: rest else rest
      | d => d)

/-- The `replace(/\0+$/g, "")` step of both CID decoders: strip the
trailing run of NUL characters. -/
def stripTrailingNuls (s : String) : String :=
  ⟨(s.data.reverse.dropWhile (· == Char.ofNat 0)).reverse⟩

/-- `encodeRootCid` of `src/eth/registry.ts`.  The returned `Hex`
string is modelled by the byte list it transports; a thrown `Error` is
`Except.error` of its message. -/
def encodeRootCid (input : String) : Except String (List Nat) :=
  let raw := jsTrim input
  if raw = "" then .error "rootCid cannot be empty"
  else if isHexString raw then
    let bytes := hexToBytes raw
    if bytes.length = 0 then .error "rootCid hex must not be empty"
    else if bytes.length > MAX_ROOT_CID_BYTES then
      .error "rootCid exceeds max bytes"
    else .ok bytes
  else
    let bytes := stringToUtf8 raw
    if bytes.length > MAX_ROOT_CID_BYTES then
      .error "rootCid exceeds max bytes"
    else .ok bytes

/-- `decodeCid` of `src/eth/registry.ts`: absent payload decodes to
`""`; a payload that is not valid UTF-8 is rendered back as its hex
string (the `catch` branch); otherwise the decoded text with trailing
NULs stripped. -/
def decodeCid (value : Option (List Nat)) : String :=
  match value with
  | none => ""
  | some bytes =>
    match utf8BytesToString bytes with
    | some str => stripTrailingNuls str
    | none => hexOfBytes bytes

theorem stripTrailingNuls_eq_self (s : String)
    (h : s.data.getLast? ≠ some (Char.ofNat 0)) :
    stripTrailingNuls s = s := by
  rw [stripTrailingNuls]
  have hd : s.data.reverse.dropWhile (· == Char.ofNat 0) = s.data.reverse := by
    cases hrev : s.data.reverse with
    | nil => rfl
    | cons a t =>
      rw [List.dropWhile_cons, if_neg]
      intro hab
      apply h
      rw [← List.head?_reverse, hrev]
      simp only [List.head?_cons, Option.some.injEq]
      exact eq_of_beq hab
  rw [hd, List.reverse_reverse]

/-- C10: for every string whose trimmed form is non-empty, is not a
`0x…` hex string, UTF-8-encodes to at most `MAX_ROOT_CID_BYTES` bytes
and does not end in NUL, `encodeRootCid` succeeds (does not throw) with
the UTF-8 bytes of the trimmed string, and `decodeCid` maps those bytes
back to exactly the trimmed string. -/
theorem encodeRootCid_decodeCid_roundtrip (s : String)
    (h1 : jsTrim s ≠ "")
    (h2 : isHexString (jsTrim s) = false)
    (h3 : (stringToUtf8 (jsTrim s)).length ≤ 4096)
    (h4 : (jsTrim s).data.getLast? ≠ some (Char.ofNat 0)) :
    encodeRootCid s = .ok (stringToUtf8 (jsTrim s)) ∧
    decodeCid (some (stringToUtf8 (jsTrim s))) = jsTrim s := by
  constructor
  · rw [encodeRootCid]
    show (if jsTrim s = "" then
        (Except.error "rootCid cannot be empty" : Except String (List Nat))
      else if isHexString (jsTrim s) then
        if (hexToBytes (jsTrim s)).length = 0 then
          Except.error "rootCid hex must not be empty"
        else if (hexToBytes (jsTrim s)).length > 4096 then
          Except.error "rootCid exceeds max bytes"
        else Except.ok (hexToBytes (jsTrim s))
      else if (stringToUtf8 (jsTrim s)).length > 4096 then
        Except.error "rootCid exceeds max bytes"
      else Except.ok (stringToUtf8 (jsTrim s))) =
      Except.ok (stringToUtf8 (jsTrim s))
    rw [if_neg h1, if_neg (show ¬ (isHexString (jsTrim s) = true) by
        rw [h2]; decide),
      if_neg (show ¬ ((stringToUtf8 (jsTrim s)).length > 4096) by omega)]
  · rw [decodeCid, utf8BytesToString_stringToUtf8]
    exact stripTrailingNuls_eq_self _ h4

/-- Witness for C10 at the concrete input `"  bafyAAA  "`. -/
theorem encodeRootCid_decodeCid_roundtrip_witness :
    (jsTrim "  bafyAAA  " ≠ "" ∧
     isHexString (jsTrim "  bafyAAA  ") = false ∧
     (stringToUtf8 (jsTrim "  bafyAAA  ")).length ≤ 4096 ∧
     (jsTrim "  bafyAAA  ").data.getLast? ≠ some (Char.ofNat 0)) ∧
    (encodeRootCid "  bafyAAA  " =
      .ok (stringToUtf8 (jsTrim "  bafyAAA  ")) ∧
     decodeCid (some (stringToUtf8 (jsTrim "  bafyAAA  "))) =
      jsTrim "  bafyAAA  ") :=
  ⟨⟨by decide, by decide, by decide, by decide⟩,
   encodeRootCid_decodeCid_roundtrip "  bafyAAA  " (by decide) (by decide)
     (by decide) (by decide)⟩

/-! ## A stable comparator sort

`Array.prototype.sort` with a consistent comparator is modelled by a
stable insertion sort under the comparator's "may precede" Boolean
relation: the result is sorted with respect to that relation and is a
permutation of the input, which is all the JavaScript specification
guarantees (and all the proofs below use).  Unlike `List.mergeSort`,
this definition also evaluates inside the kernel, so concrete scenarios
can be settled by `decide`. -/

def insertLE {α : Type} (le : α → α → Bool) (x : α) : List α → List α
  | [] => [x]
  | y :: ys => if le x y then x :: y :: ys else y :: insertLE le x ys

def sortByLE {α : Type} (le : α → α → Bool) : List α → List α
  | [] => []
  | x :: xs => insertLE le x (sortByLE le xs)

theorem insertLE_perm {α : Type} (le : α → α → Bool) (x : α) :
    ∀ l : List α, (insertLE le x l).Perm (x :: l) := by
  intro l
  induction l with
  | nil => exact List.Perm.refl _
  | cons y ys ih =>
    rw [insertLE]
    by_cases h : le x y = true
    · rw [if_pos h]
    · rw [if_neg h]
      exact List.Perm.trans (List.Perm.cons y ih) (List.Perm.swap x y ys)

theorem sortByLE_perm {α : Type} (le : α → α → Bool) :
    ∀ l : List α, (sortByLE le l).Perm l := by
  intro l
  induction l with
  | nil => exact List.Perm.refl _
  | cons x xs ih =>
    rw [sortByLE]
    exact List.Perm.trans (insertLE_perm le x _) (List.Perm.cons x ih)

theorem insertLE_pairwise {α : Type} (le : α → α → Bool)
    (htrans : ∀ a b c, le a b = true → le b c = true → le a c = true)
    (htot : ∀ a b, (le a b || le b a) = true)
    (x : α) (l : List α) (hl : l.Pairwise (fun a b => le a b = true)) :
    (insertLE le x l).Pairwise (fun a b => le a b = true) := by
  induction l with
  | nil => simp [insertLE]
  | cons y ys ih =>
    rw [List.pairwise_cons] at hl
    obtain ⟨hy, hys⟩ := hl
    rw [insertLE]
    by_cases hxy : le x y = true
    · rw [if_pos hxy]
      refine List.pairwise_cons.mpr ⟨?_, List.pairwise_cons.mpr ⟨hy, hys⟩⟩
      intro z hz
      rcases List.mem_cons.mp hz with rfl | hz
      · exact hxy
      · exact htrans x y z hxy (hy z hz)
    · rw [if_neg hxy]
      refine List.pairwise_cons.mpr ⟨?_, ih hys⟩
      intro z hz
      have hmem : z = x ∨ z ∈ ys := by
        have := (insertLE_perm le x ys).mem_iff.mp hz
        simpa using this
      rcases hmem with rfl | hz2
      · have h2 := htot z y
        rw [Bool.or_eq_true] at h2
        rcases h2 with h2 | h2
        · exact absurd h2 hxy
        · exact h2
      · exact hy z hz2

theorem sortByLE_pairwise {α : Type} (le : α → α → Bool)
    (htrans : ∀ a b c, le a b = true → le b c = true → le a c = true)
    (htot : ∀ a b, (le a b || le b a) = true) :
    ∀ l : List α, (sortByLE le l).Pairwise (fun a b => le a b = true) := by
  intro l
  induction l with
  | nil => exact List.Pairwise.nil
  | cons x xs ih =>
    rw [sortByLE]
    exact insertLE_pairwise le htrans htot x _ ih

/-! ## Proposal event decoder & projector

`listProposals` of the governor module (the chunked implementation
embedded in `StudioUi.tsx`, which is the revision the application
imports — it is the one defining `ProposalRuntimeInfo`): decode each
`ProposalCreated` log, read the authoritative state per proposal, drop
entries whose decode or read fails, sort by descending
`(createdBlock, createdLogIndex, voteStart, proposalId)`, and strip
the sort keys. -/

/-- Decoded `ProposalCreated` event arguments (the `decoded.args` of a
successful strict `decodeEventLog`). -/
structure ProposalCreatedArgs where
  proposalId : Nat
  proposer : String
  description : String
  targets : List String
  values : List Nat
  calldatas : List Nat
  voteStart : Nat
  voteEnd : Nat
deriving DecidableEq, Repr

/-- `STATE_NAMES` of the governor module. -/
def STATE_NAMES : List String :=
  ["Pending", "Active", "Canceled", "Defeated", "Succeeded", "Queued",
    "Expired", "Executed"]

/-- `STATE_NAMES[Number(stateNum)] ?? String(stateNum)`: an
unrecognized state code is its decimal rendering. -/
def stateName (n : Nat) : String := (STATE_NAMES.get? n).getD (toString n)

/-- `ProposalInfo` of the governor module (calldata payloads opaque,
consumed only through a decoding function). -/
structure ProposalInfo where
  proposalId : Nat
  proposer : String
  description : String
  targets : List String
  values : List Nat
  calldatas : List Nat
  voteStart : Nat
  voteEnd : Nat
  state : String
deriving DecidableEq, Repr

/-- One `listProposals` row before the final projection: a
`ProposalInfo` plus the `createdBlock`/`createdLogIndex` sort keys
taken from the raw log. -/
structure ProposalRow where
  info : ProposalInfo
  createdBlock : Nat
  createdLogIndex : Nat
deriving DecidableEq, Repr

/-- The body of the `logs.map` in `listProposals`: decode the log
(strict; failure caught and mapped to `null`), then issue the
authoritative `state` read (failure also caught to `null`). -/
def decodeProposalRow (decode : RawLog → Option ProposalCreatedArgs)
    (readState : Nat → Option Nat) (log : RawLog) : Option ProposalRow :=
  match decode log with
  | none => none
  | some args =>
    match readState args.proposalId with
    | none => none
    | some stateNum =>
      some ⟨⟨args.proposalId, args.proposer, args.description, args.targets,
        args.values, args.calldatas, args.voteStart, args.voteEnd,
        stateName stateNum⟩, log.blockNumber, log.logIndex⟩

/-- The `rows.sort` comparator of `listProposals` (returns `-1`, `1`
or `0` as the source does). -/
def proposalCmp (a b : ProposalRow) : Int :=
  if a.createdBlock ≠ b.createdBlock then
    if a.createdBlock > b.createdBlock then -1 else 1
  else if a.createdLogIndex ≠ b.createdLogIndex then
    if a.createdLogIndex > b.createdLogIndex then -1 else 1
  else if a.info.voteStart ≠ b.info.voteStart then
    if a.info.voteStart > b.info.voteStart then -1 else 1
  else if a.info.proposalId ≠ b.info.proposalId then
    if a.info.proposalId > b.info.proposalId then -1 else 1
  else 0

/-- `a` may precede `b` under the comparator. -/
def proposalLE (a b : ProposalRow) : Bool := proposalCmp a b ≤ 0

/-- The decoded, state-enriched, sorted rows of `listProposals` (the
comparator sort modelled by `sortByLE` under the comparator's "is not
greater" relation). -/
def listProposalsRows (decode : RawLog → Option ProposalCreatedArgs)
    (readState : Nat → Option Nat) (logs : List RawLog) : List ProposalRow :=
  sortByLE proposalLE (logs.filterMap (decodeProposalRow decode readState))

/-- `listProposals`: the sorted rows with the sort keys stripped. -/
def listProposals (decode : RawLog → Option ProposalCreatedArgs)
    (readState : Nat → Option Nat) (logs : List RawLog) : List ProposalInfo :=
  (listProposalsRows decode readState logs).map (·.info)

/-- Descending lexicographic order on
`(createdBlock, createdLogIndex, voteStart, proposalId)`: `b` does not
beat `a` for an earlier position. -/
def key4Ge (a b : ProposalRow) : Prop :=
  b.createdBlock < a.createdBlock ∨
    (b.createdBlock = a.createdBlock ∧
      (b.createdLogIndex < a.createdLogIndex ∨
        (b.createdLogIndex = a.createdLogIndex ∧
          (b.info.voteStart < a.info.voteStart ∨
            (b.info.voteStart = a.info.voteStart ∧
              b.info.proposalId ≤ a.info.proposalId)))))

theorem proposalLE_iff (a b : ProposalRow) :
    proposalLE a b = true ↔ key4Ge a b := by
  unfold proposalLE proposalCmp key4Ge
  split_ifs <;> simp_all <;> omega

theorem key4Ge_trans (a b c : ProposalRow) :
    key4Ge a b → key4Ge b c → key4Ge a c := by
  unfold key4Ge
  omega

theorem key4Ge_total (a b : ProposalRow) : key4Ge a b ∨ key4Ge b a := by
  unfold key4Ge
  omega

/-- C1: for every decoder, state reader and fetched log list, the rows
of `listProposals` are pairwise ordered by the descending lexicographic
key `(createdBlock, createdLogIndex)` with descending
`(voteStart, proposalId)` breaking residual ties — so whenever one
row's creation key is lexicographically greater than another's, it
appears strictly earlier — and the returned `ProposalInfo` list is
exactly those rows with the sort keys stripped, in that order. -/
theorem listProposals_sorted_by_creation
    (decode : RawLog → Option ProposalCreatedArgs)
    (readState : Nat → Option Nat) (logs : List RawLog) :
    (listProposalsRows decode readState logs).Pairwise key4Ge ∧
    listProposals decode readState logs =
      (listProposalsRows decode readState logs).map (·.info) := by
  refine ⟨?_, rfl⟩
  have h := sortByLE_pairwise proposalLE
    (fun a b c hab hbc => (proposalLE_iff a c).mpr
      (key4Ge_trans a b c ((proposalLE_iff a b).mp hab)
        ((proposalLE_iff b c).mp hbc)))
    (fun a b => by
      rcases key4Ge_total a b with h | h
      · rw [Bool.or_eq_true, proposalLE_iff]
        exact Or.inl h
      · rw [Bool.or_eq_true, proposalLE_iff a b, proposalLE_iff b a]
        exact Or.inr h)
    (logs.filterMap (decodeProposalRow decode readState))
  exact h.imp fun hab => (proposalLE_iff _ _).mp hab

/-! ## Registry event projector (`listDapps` of `src/eth/registry.ts`)

Six log streams are fetched, tagged with their event kind, merged into
one ascending `(blockNumber, logIndex)` timeline and folded left to
right into a per-dapp, per-version map.  Note that, unlike
`listProposals`, the fold calls `decodeEventLog` with **no**
`try`/`catch`: a decode failure rejects the whole `listDapps` promise,
which the embedding renders as `Option.none` for the entire result. -/

/-- Decoded `DappPublished` arguments (`rootCid` is the raw byte
payload). -/
structure PublishedArgs where
  dappId : Nat
  versionId : Nat
  rootCid : List Nat
deriving DecidableEq, Repr

/-- Decoded `DappUpgraded` arguments. -/
structure UpgradedArgs where
  dappId : Nat
  fromVersionId : Nat
  toVersionId : Nat
  rootCid : List Nat
deriving DecidableEq, Repr

/-- Decoded `DappMetadata` arguments. -/
structure MetadataArgs where
  dappId : Nat
  versionId : Nat
  name : String
  version : String
  description : String
deriving DecidableEq, Repr

/-- Decoded `DappPaused` / `DappUnpaused` / `DappDeprecated` arguments
(the actor and reason fields are not consumed by the fold). -/
structure StatusArgs where
  dappId : Nat
  versionId : Nat
deriving DecidableEq, Repr

/-- The six strict `decodeEventLog` calls of the fold, one per event
shape. -/
structure RegistryDecoder where
  published : RawLog → Option PublishedArgs
  upgraded : RawLog → Option UpgradedArgs
  metadata : RawLog → Option MetadataArgs
  paused : RawLog → Option StatusArgs
  unpaused : RawLog → Option StatusArgs
  deprecated : RawLog → Option StatusArgs

/-- The `kind` tag attached to each log before merging. -/
inductive RegKind where
  | published
  | upgraded
  | metadata
  | paused
  | unpaused
  | deprecated
deriving DecidableEq, Repr

/-- A kind-tagged raw log, as produced by the six `…map((log) =>
({kind, log}))` spreads. -/
structure TaggedLog where
  kind : RegKind
  log : RawLog
deriving DecidableEq, Repr

/-- The merge comparator: ascending `(blockNumber, logIndex)` (the
source compares `Number` of `bigint` differences, whose sign is the
sign of the difference). -/
def regLogLE (a b : TaggedLog) : Bool :=
  a.log.blockNumber < b.log.blockNumber ∨
    (a.log.blockNumber = b.log.blockNumber ∧ a.log.logIndex ≤ b.log.logIndex)

/-- The merged chain-order timeline of the six tagged streams. -/
def mergedLogs (published upgraded metadata paused unpaused deprecated :
    List RawLog) : List TaggedLog :=
  sortByLE regLogLE
    (published.map (TaggedLog.mk RegKind.published) ++
      upgraded.map (TaggedLog.mk RegKind.upgraded) ++
      metadata.map (TaggedLog.mk RegKind.metadata) ++
      paused.map (TaggedLog.mk RegKind.paused) ++
      unpaused.map (TaggedLog.mk RegKind.unpaused) ++
      deprecated.map (TaggedLog.mk RegKind.deprecated))

/-- JavaScript `Map.get` over an insertion-ordered association list
keyed by (the decimal rendering of) a `Nat`: the first entry with a
matching key (keys are unique throughout, see `goodMap`). -/
def mapGet {α : Type} (m : List (Nat × α)) (k : Nat) : Option α :=
  match m with
  | [] => none
  | p :: rest => if p.1 = k then some p.2 else mapGet rest k

/-- JavaScript `Map.set`: replace in place when the key exists,
append otherwise. -/
def mapSet {α : Type} (m : List (Nat × α)) (k : Nat) (v : α) :
    List (Nat × α) :=
  if m.any fun p => p.1 == k then
    m.map fun p => if p.1 == k then (k, v) else p
  else m ++ [(k, v)]

/-- The `Version` record of the fold (all descriptive fields optional,
exactly as in the source). -/
structure VersionRec where
  versionId : Nat
  rootCid : Option String := none
  name : Option String := none
  version : Option String := none
  description : Option String := none
  status : Option String := none
deriving DecidableEq, Repr

/-- The `Dapp` record of the fold. -/
structure DappRec where
  dappId : Nat
  latestVersionId : Nat
  versions : List (Nat × VersionRec)
deriving DecidableEq, Repr

/-- The evolving `dapps` map of the fold. -/
abbrev DappsMap := List (Nat × DappRec)

/-- The `getVersion` helper: fetch (or create empty) the dapp and the
addressed version record.  The source also writes both back
immediately; since every caller overwrites them again through the
aliased references, the embedding performs the single final write in
each `apply…` function. -/
def getVersion (dapps : DappsMap) (dappId versionId : Nat) :
    DappRec × VersionRec :=
  let dapp := (mapGet dapps dappId).getD ⟨dappId, 0, []⟩
  let version := (mapGet dapp.versions versionId).getD
    ⟨versionId, none, none, none, none, none⟩
  (dapp, version)

/-- `DappPublished`: set `rootCid` (CID-decoded) and status
`"Published"`, advance `latestVersionId`. -/
def applyPublished (dapps : DappsMap) (a : PublishedArgs) : DappsMap :=
  let dv := getVersion dapps a.dappId a.versionId
  let version := { dv.2 with
    rootCid := some (decodeCid (some a.rootCid)),
    status := some "Published" }
  let dapp := { dv.1 with
    versions := mapSet dv.1.versions a.versionId version,
    latestVersionId := a.versionId }
  mapSet dapps a.dappId dapp

/-- `DappUpgraded`: same as publish, addressed at `toVersionId`. -/
def applyUpgraded (dapps : DappsMap) (a : UpgradedArgs) : DappsMap :=
  let dv := getVersion dapps a.dappId a.toVersionId
  let version := { dv.2 with
    rootCid := some (decodeCid (some a.rootCid)),
    status := some "Published" }
  let dapp := { dv.1 with
    versions := mapSet dv.1.versions a.toVersionId version,
    latestVersionId := a.toVersionId }
  mapSet dapps a.dappId dapp

/-- `DappMetadata`: set the three descriptive fields on the existing
(or freshly created) version record; status and `latestVersionId`
untouched. -/
def applyMetadata (dapps : DappsMap) (a : MetadataArgs) : DappsMap :=
  let dv := getVersion dapps a.dappId a.versionId
  let version := { dv.2 with
    name := some a.name,
    version := some a.version,
    description := some a.description }
  let dapp := { dv.1 with
    versions := mapSet dv.1.versions a.versionId version }
  mapSet dapps a.dappId dapp

/-- `DappPaused` / `DappUnpaused` / `DappDeprecated`: only the status
of the addressed version changes (`"Paused"` / `"Published"` /
`"Deprecated"`). -/
def applyStatus (dapps : DappsMap) (dappId versionId : Nat)
    (status : String) : DappsMap :=
  let dv := getVersion dapps dappId versionId
  let version := { dv.2 with status := some status }
  let dapp := { dv.1 with versions := mapSet dv.1.versions versionId version }
  mapSet dapps dappId dapp

/-- One step of the fold: decode the tagged log with the decoder of its
kind (no `try`/`catch` — `none` aborts) and apply its update. -/
def applyTagged (dec : RegistryDecoder) (dapps : DappsMap) (t : TaggedLog) :
    Option DappsMap :=
  match t.kind with
  | RegKind.published => (dec.published t.log).map (applyPublished dapps)
  | RegKind.upgraded => (dec.upgraded t.log).map (applyUpgraded dapps)
  | RegKind.metadata => (dec.metadata t.log).map (applyMetadata dapps)
  | RegKind.paused => (dec.paused t.log).map fun a =>
      applyStatus dapps a.dappId a.versionId "Paused"
  | RegKind.unpaused => (dec.unpaused t.log).map fun a =>
      applyStatus dapps a.dappId a.versionId "Published"
  | RegKind.deprecated => (dec.deprecated t.log).map fun a =>
      applyStatus dapps a.dappId a.versionId "Deprecated"

/-- The `DappRow` returned to the UI. -/
structure DappRow where
  dappId : Nat
  versionId : Nat
  name : String
  version : String
  description : String
  status : String
  rootCid : String
deriving DecidableEq, Repr

/-- The final projection of one dapp: the latest-version view
`versions[latestVersionId]`, with the source's `?? ""` / `?? "Unknown"`
defaults. -/
def dappToRow (d : DappRec) : DappRow :=
  let latest := mapGet d.versions d.latestVersionId
  ⟨d.dappId, d.latestVersionId,
    (latest.bind (·.name)).getD "",
    (latest.bind (·.version)).getD "",
    (latest.bind (·.description)).getD "",
    (latest.bind (·.status)).getD "Unknown",
    (latest.bind (·.rootCid)).getD ""⟩

/-- `listDapps`: merge the six streams in chain order, fold, project
one row per dapp; `none` when any merged log fails to decode. -/
def listDapps (dec : RegistryDecoder)
    (published upgraded metadata paused unpaused deprecated : List RawLog) :
    Option (List DappRow) :=
  ((mergedLogs published upgraded metadata paused unpaused
      deprecated).foldlM (applyTagged dec) ([] : DappsMap)).map
    fun dapps => dapps.map fun p => dappToRow p.2

/-- The `dappId` carried by a tagged log's decoded arguments (`none`
when its decode fails). -/
def taggedDappId (dec : RegistryDecoder) (t : TaggedLog) : Option Nat :=
  match t.kind with
  | RegKind.published => (dec.published t.log).map (·.dappId)
  | RegKind.upgraded => (dec.upgraded t.log).map (·.dappId)
  | RegKind.metadata => (dec.metadata t.log).map (·.dappId)
  | RegKind.paused => (dec.paused t.log).map (·.dappId)
  | RegKind.unpaused => (dec.unpaused t.log).map (·.dappId)
  | RegKind.deprecated => (dec.deprecated t.log).map (·.dappId)

/-- A well-formed fold state: pairwise distinct keys, and every record
stored under its own `dappId`. -/
def goodMap (dapps : DappsMap) : Prop :=
  (dapps.map (·.1)).Nodup ∧ ∀ p ∈ dapps, p.2.dappId = p.1

theorem mapSet_keys {α : Type} (m : List (Nat × α)) (k : Nat) (v : α) :
    (mapSet m k v).map (·.1) =
      if m.any (fun p => p.1 == k) then m.map (·.1)
      else m.map (·.1) ++ [k] := by
  unfold mapSet
  split
  · rw [List.map_map]
    apply List.map_congr_left
    intro p _
    by_cases h : (p.1 == k) = true
    · simp only [Function.comp_apply, if_pos h]
      exact (eq_of_beq h).symm
    · simp only [Function.comp_apply, if_neg h]
  · simp

theorem mem_keys_mapSet {α : Type} (m : List (Nat × α)) (k : Nat) (v : α)
    (k2 : Nat) :
    k2 ∈ (mapSet m k v).map (·.1) ↔ k2 = k ∨ k2 ∈ m.map (·.1) := by
  rw [mapSet_keys]
  split
  · rename_i h
    constructor
    · exact Or.inr
    · rintro (rfl | hm)
      · obtain ⟨p, hp, hpk⟩ := List.any_eq_true.mp h
        exact List.mem_map.mpr ⟨p, hp, eq_of_beq hpk⟩
      · exact hm
  · rw [List.mem_append, List.mem_singleton]
    tauto

theorem nodup_keys_mapSet {α : Type} (m : List (Nat × α)) (k : Nat) (v : α)
    (h : (m.map (·.1)).Nodup) : ((mapSet m k v).map (·.1)).Nodup := by
  rw [mapSet_keys]
  split
  · exact h
  · rename_i hany
    rw [List.nodup_append]
    refine ⟨h, List.nodup_singleton k, ?_⟩
    intro a ha hb
    rw [List.mem_singleton] at hb
    subst hb
    obtain ⟨p, hp, hpk⟩ := List.mem_map.mp ha
    exact hany (List.any_eq_true.mpr ⟨p, hp, by simp [hpk]⟩)

theorem mem_mapSet {α : Type} (m : List (Nat × α)) (k : Nat) (v : α) :
    ∀ p ∈ mapSet m k v, p = (k, v) ∨ p ∈ m := by
  unfold mapSet
  split
  · intro p hp
    obtain ⟨q, hq, hqe⟩ := List.mem_map.mp hp
    by_cases h : (q.1 == k) = true
    · rw [if_pos h] at hqe
      exact Or.inl hqe.symm
    · rw [if_neg h] at hqe
      exact Or.inr (hqe ▸ hq)
  · intro p hp
    rcases List.mem_append.mp hp with hp | hp
    · exact Or.inr hp
    · rw [List.mem_singleton] at hp
      exact Or.inl hp

theorem goodMap_mapSet (m : DappsMap) (k : Nat) (v : DappRec)
    (hm : goodMap m) (hv : v.dappId = k) : goodMap (mapSet m k v) := by
  refine ⟨nodup_keys_mapSet m k v hm.1, ?_⟩
  intro p hp
  rcases mem_mapSet m k v p hp with rfl | hp
  · exact hv
  · exact hm.2 p hp

theorem mapGet_dappId (m : DappsMap) (k : Nat) (d : DappRec)
    (hm : goodMap m) (h : mapGet m k = some d) : d.dappId = k := by
  induction m with
  | nil => cases h
  | cons p m ih =>
    rw [mapGet] at h
    by_cases hp : p.1 = k
    · rw [if_pos hp] at h
      have hd : p.2 = d := by cases h; rfl
      rw [← hd, hm.2 p (List.mem_cons_self _ _)]
      exact hp
    · rw [if_neg hp] at h
      refine ih ⟨?_, ?_⟩ h
      · have := hm.1
        rw [List.map_cons, List.nodup_cons] at this
        exact this.2
      · intro q hq
        exact hm.2 q (List.mem_cons_of_mem _ hq)

theorem getVersion_dappId (dapps : DappsMap) (dappId versionId : Nat)
    (hm : goodMap dapps) :
    (getVersion dapps dappId versionId).1.dappId = dappId := by
  unfold getVersion
  cases hg : mapGet dapps dappId with
  | none => simp [hg]
  | some d =>
    simp only [hg, Option.getD_some]
    exact mapGet_dappId dapps dappId d hm hg

theorem applyPublished_spec (dapps : DappsMap) (a : PublishedArgs)
    (hm : goodMap dapps) :
    goodMap (applyPublished dapps a) ∧
    (∀ k ∈ dapps.map (·.1), k ∈ (applyPublished dapps a).map (·.1)) ∧
    a.dappId ∈ (applyPublished dapps a).map (·.1) := by
  simp only [applyPublished]
  exact ⟨goodMap_mapSet _ _ _ hm
      (getVersion_dappId dapps a.dappId a.versionId hm),
    fun k2 hk2 => (mem_keys_mapSet _ _ _ k2).mpr (Or.inr hk2),
    (mem_keys_mapSet _ _ _ a.dappId).mpr (Or.inl rfl)⟩

theorem applyUpgraded_spec (dapps : DappsMap) (a : UpgradedArgs)
    (hm : goodMap dapps) :
    goodMap (applyUpgraded dapps a) ∧
    (∀ k ∈ dapps.map (·.1), k ∈ (applyUpgraded dapps a).map (·.1)) ∧
    a.dappId ∈ (applyUpgraded dapps a).map (·.1) := by
  simp only [applyUpgraded]
  exact ⟨goodMap_mapSet _ _ _ hm
      (getVersion_dappId dapps a.dappId a.toVersionId hm),
    fun k2 hk2 => (mem_keys_mapSet _ _ _ k2).mpr (Or.inr hk2),
    (mem_keys_mapSet _ _ _ a.dappId).mpr (Or.inl rfl)⟩

theorem applyMetadata_spec (dapps : DappsMap) (a : MetadataArgs)
    (hm : goodMap dapps) :
    goodMap (applyMetadata dapps a) ∧
    (∀ k ∈ dapps.map (·.1), k ∈ (applyMetadata dapps a).map (·.1)) ∧
    a.dappId ∈ (applyMetadata dapps a).map (·.1) := by
  simp only [applyMetadata]
  exact ⟨goodMap_mapSet _ _ _ hm
      (getVersion_dappId dapps a.dappId a.versionId hm),
    fun k2 hk2 => (mem_keys_mapSet _ _ _ k2).mpr (Or.inr hk2),
    (mem_keys_mapSet _ _ _ a.dappId).mpr (Or.inl rfl)⟩

theorem applyStatus_spec (dapps : DappsMap) (dappId versionId : Nat)
    (status : String) (hm : goodMap dapps) :
    goodMap (applyStatus dapps dappId versionId status) ∧
    (∀ k ∈ dapps.map (·.1),
      k ∈ (applyStatus dapps dappId versionId status).map (·.1)) ∧
    dappId ∈ (applyStatus dapps dappId versionId status).map (·.1) := by
  simp only [applyStatus]
  exact ⟨goodMap_mapSet _ _ _ hm (getVersion_dappId dapps dappId versionId hm),
    fun k2 hk2 => (mem_keys_mapSet _ _ _ k2).mpr (Or.inr hk2),
    (mem_keys_mapSet _ _ _ dappId).mpr (Or.inl rfl)⟩

/-- Every fold step, on success, preserves well-formedness, keeps all
existing keys, and records its event under its own decoded `dappId`. -/
theorem applyTagged_spec (dec : RegistryDecoder) (dapps : DappsMap)
    (t : TaggedLog) (s : DappsMap) (hm : goodMap dapps)
    (h : applyTagged dec dapps t = some s) :
    goodMap s ∧ (∀ k ∈ dapps.map (·.1), k ∈ s.map (·.1)) ∧
    (∀ d, taggedDappId dec t = some d → d ∈ s.map (·.1)) := by
  cases t with
  | mk kind log =>
    cases kind <;>
      simp only [applyTagged, taggedDappId] at h ⊢
    case published =>
      cases hdec : dec.published log with
      | none => rw [hdec] at h; cases h
      | some args =>
        rw [hdec] at h
        simp only [Option.map_some', Option.some.injEq] at h
        subst h
        have hspec := applyPublished_spec dapps args hm
        refine ⟨hspec.1, hspec.2.1, ?_⟩
        intro d hd
        simp only [Option.map_some', Option.some.injEq] at hd
        subst hd
        exact hspec.2.2
    case upgraded =>
      cases hdec : dec.upgraded log with
      | none => rw [hdec] at h; cases h
      | some args =>
        rw [hdec] at h
        simp only [Option.map_some', Option.some.injEq] at h
        subst h
        have hspec := applyUpgraded_spec dapps args hm
        refine ⟨hspec.1, hspec.2.1, ?_⟩
        intro d hd
        simp only [Option.map_some', Option.some.injEq] at hd
        subst hd
        exact hspec.2.2
    case metadata =>
      cases hdec : dec.metadata log with
      | none => rw [hdec] at h; cases h
      | some args =>
        rw [hdec] at h
        simp only [Option.map_some', Option.some.injEq] at h
        subst h
        have hspec := applyMetadata_spec dapps args hm
        refine ⟨hspec.1, hspec.2.1, ?_⟩
        intro d hd
        simp only [Option.map_some', Option.some.injEq] at hd
        subst hd
        exact hspec.2.2
    case paused =>
      cases hdec : dec.paused log with
      | none => rw [hdec] at h; cases h
      | some args =>
        rw [hdec] at h
        simp only [Option.map_some', Option.some.injEq] at h
        subst h
        have hspec := applyStatus_spec dapps args.dappId args.versionId
          "Paused" hm
        refine ⟨hspec.1, hspec.2.1, ?_⟩
        intro d hd
        simp only [Option.map_some', Option.some.injEq] at hd
        subst hd
        exact hspec.2.2
    case unpaused =>
      cases hdec : dec.unpaused log with
      | none => rw [hdec] at h; cases h
      | some args =>
        rw [hdec] at h
        simp only [Option.map_some', Option.some.injEq] at h
        subst h
        have hspec := applyStatus_spec dapps args.dappId args.versionId
          "Published" hm
        refine ⟨hspec.1, hspec.2.1, ?_⟩
        intro d hd
        simp only [Option.map_some', Option.some.injEq] at hd
        subst hd
        exact hspec.2.2
    case deprecated =>
      cases hdec : dec.deprecated log with
      | none => rw [hdec] at h; cases h
      | some args =>
        rw [hdec] at h
        simp only [Option.map_some', Option.some.injEq] at h
        subst h
        have hspec := applyStatus_spec dapps args.dappId args.versionId
          "Deprecated" hm
        refine ⟨hspec.1, hspec.2.1, ?_⟩
        intro d hd
        simp only [Option.map_some', Option.some.injEq] at hd
        subst hd
        exact hspec.2.2

/-- The fold, when it succeeds, yields a well-formed state containing
every key of the initial state. -/
theorem foldlM_applyTagged_good (dec : RegistryDecoder) :
    ∀ (l : List TaggedLog) (dapps res : DappsMap), goodMap dapps →
      l.foldlM (applyTagged dec) dapps = some res →
      goodMap res ∧ ∀ k ∈ dapps.map (·.1), k ∈ res.map (·.1) := by
  intro l
  induction l with
  | nil =>
    intro dapps res hm h
    rw [List.foldlM_nil] at h
    cases h
    exact ⟨hm, fun k hk => hk⟩
  | cons t l ih =>
    intro dapps res hm h
    rw [List.foldlM_cons] at h
    cases ha : applyTagged dec dapps t with
    | none => rw [ha] at h; cases h
    | some s =>
      rw [ha] at h
      have hs := applyTagged_spec dec dapps t s hm ha
      obtain ⟨hgr, hsub2⟩ := ih s res hs.1 h
      exact ⟨hgr, fun k hk => hsub2 k (hs.2.1 k hk)⟩

/-- Every merged event that the successful fold processed contributed
its decoded `dappId` to the final key set. -/
theorem foldlM_applyTagged_reaches (dec : RegistryDecoder) :
    ∀ (l : List TaggedLog) (dapps res : DappsMap), goodMap dapps →
      l.foldlM (applyTagged dec) dapps = some res →
      ∀ t ∈ l, ∀ d, taggedDappId dec t = some d → d ∈ res.map (·.1) := by
  intro l
  induction l with
  | nil =>
    intro dapps res _ _ t ht
    cases ht
  | cons t0 l ih =>
    intro dapps res hm h t ht d hd
    rw [List.foldlM_cons] at h
    cases ha : applyTagged dec dapps t0 with
    | none => rw [ha] at h; cases h
    | some s =>
      rw [ha] at h
      have hs := applyTagged_spec dec dapps t0 s hm ha
      rcases List.mem_cons.mp ht with rfl | ht2
      · have hds := hs.2.2 d hd
        exact (foldlM_applyTagged_good dec l s res hs.1 h).2 d hds
      · exact ih s res hs.1 h t ht2 d hd

/-- The concrete decoder of the C2 scenario: one `DappPublished` log
(payload tag `1`) decoding to `(dappId 7, versionId 1, bytes of
"bafyAAA")` and one `DappPaused` log (payload tag `2`) decoding to
`(dappId 7, versionId 1)`. -/
def c2Dec : RegistryDecoder where
  published := fun l =>
    if l.payload = 1 then some ⟨7, 1, stringToUtf8 "bafyAAA"⟩ else none
  upgraded := fun _ => none
  metadata := fun _ => none
  paused := fun l => if l.payload = 2 then some ⟨7, 1⟩ else none
  unpaused := fun _ => none
  deprecated := fun _ => none

/-- C2: whenever `listDapps` succeeds, the returned row set has exactly
one row per `dappId` — the `dappId` column is duplicate-free, and every
decoded merged event's `dappId` is represented by a row (each row being
the latest-version view `versions[latestVersionId]` by construction of
`dappToRow`).  In particular, the concrete scenario of a publish of
version 1 with content bytes decoding to `"bafyAAA"` followed in chain
order by a pause of version 1 yields exactly the single row
`{dappId 7, versionId 1, rootCid "bafyAAA", status "Paused"}`. -/
theorem listDapps_one_row_per_dapp :
    (∀ (dec : RegistryDecoder) (p u m pa un de : List RawLog)
      (rows : List DappRow), listDapps dec p u m pa un de = some rows →
        ((rows.map (·.dappId)).Nodup ∧
         ∀ t ∈ mergedLogs p u m pa un de, ∀ d,
           taggedDappId dec t = some d → ∃ r ∈ rows, r.dappId = d)) ∧
    listDapps c2Dec [⟨100, 0, 1⟩] [] [] [⟨101, 0, 2⟩] [] [] =
      some [⟨7, 1, "", "", "", "Paused", "bafyAAA"⟩] := by
  constructor
  · intro dec p u m pa un de rows h
    unfold listDapps at h
    cases hfold : (mergedLogs p u m pa un de).foldlM (applyTagged dec)
        ([] : DappsMap) with
    | none => rw [hfold] at h; cases h
    | some res =>
      rw [hfold] at h
      simp only [Option.map_some', Option.some.injEq] at h
      subst h
      have hgood : goodMap ([] : DappsMap) := ⟨List.nodup_nil, by intro p hp; cases hp⟩
      have hres := foldlM_applyTagged_good dec _ _ _ hgood hfold
      have hkeys : (res.map fun pr => (dappToRow pr.2).dappId) =
          res.map (·.1) := by
        apply List.map_congr_left
        intro pr hpr
        show pr.2.dappId = pr.1
        exact hres.1.2 pr hpr
      constructor
      · rw [List.map_map]
        simp only [Function.comp_def]
        rw [hkeys]
        exact hres.1.1
      · intro t ht d hd
        have hmem := foldlM_applyTagged_reaches dec _ _ _ hgood hfold t ht d hd
        obtain ⟨pr, hpr, hpk⟩ := List.mem_map.mp hmem
        refine ⟨dappToRow pr.2, List.mem_map.mpr ⟨pr, hpr, rfl⟩, ?_⟩
        show pr.2.dappId = d
        rw [hres.1.2 pr hpr]
        exact hpk
  · decide

/-- Witness for C2: the scenario run succeeds, and by the theorem its
row set is duplicate-free in `dappId`. -/
theorem listDapps_one_row_per_dapp_witness :
    (listDapps c2Dec [⟨100, 0, 1⟩] [] [] [⟨101, 0, 2⟩] [] [] =
      some [⟨7, 1, "", "", "", "Paused", "bafyAAA"⟩]) ∧
    (([(⟨7, 1, "", "", "", "Paused", "bafyAAA"⟩ : DappRow)].map
      (·.dappId)).Nodup) :=
  ⟨listDapps_one_row_per_dapp.2,
   (listDapps_one_row_per_dapp.1 c2Dec _ _ _ _ _ _ _
     listDapps_one_row_per_dapp.2).1⟩

/-- The concrete decoder of the C6 counterexample: `DappPublished`
payload tag `1` decodes; payload tag `99` is malformed (decode
throws). -/
def c6Dec : RegistryDecoder where
  published := fun l =>
    if l.payload = 1 then some ⟨7, 1, stringToUtf8 "bafyAAA"⟩ else none
  upgraded := fun _ => none
  metadata := fun _ => none
  paused := fun _ => none
  unpaused := fun _ => none
  deprecated := fun _ => none

/-- Counterexample to C6 as stated: with one decodable publish log and
one malformed log in the published stream, `listDapps` returns no rows
at all (the decode failure aborts the whole listing), although the
decodable log alone projects to one row — so a malformed entry is not
"silently dropped" by `listDapps`. -/
theorem listDapps_malformed_aborts_counterexample :
    listDapps c6Dec [⟨100, 0, 1⟩, ⟨101, 0, 99⟩] [] [] [] [] [] = none ∧
    listDapps c6Dec [⟨100, 0, 1⟩] [] [] [] [] [] =
      some [⟨7, 1, "", "", "", "Published", "bafyAAA"⟩] := by
  constructor
  · decide
  · decide

/-- A fold step on an undecodable tagged log fails regardless of the
accumulated state. -/
theorem applyTagged_none (dec : RegistryDecoder) (t : TaggedLog)
    (h : taggedDappId dec t = none) :
    ∀ dapps : DappsMap, applyTagged dec dapps t = none := by
  intro dapps
  cases t with
  | mk kind log =>
    cases kind <;> simp only [applyTagged, taggedDappId] at h ⊢
    case published =>
      cases hdec : dec.published log
      · rfl
      · rw [hdec] at h; simp at h
    case upgraded =>
      cases hdec : dec.upgraded log
      · rfl
      · rw [hdec] at h; simp at h
    case metadata =>
      cases hdec : dec.metadata log
      · rfl
      · rw [hdec] at h; simp at h
    case paused =>
      cases hdec : dec.paused log
      · rfl
      · rw [hdec] at h; simp at h
    case unpaused =>
      cases hdec : dec.unpaused log
      · rfl
      · rw [hdec] at h; simp at h
    case deprecated =>
      cases hdec : dec.deprecated log
      · rfl
      · rw [hdec] at h; simp at h

/-- A fold over a timeline containing an undecodable log fails. -/
theorem foldlM_applyTagged_none (dec : RegistryDecoder) (t : TaggedLog)
    (hfail : ∀ s : DappsMap, applyTagged dec s t = none) :
    ∀ (l : List TaggedLog) (dapps : DappsMap), t ∈ l →
      l.foldlM (applyTagged dec) dapps = none := by
  intro l
  induction l with
  | nil =>
    intro dapps ht
    cases ht
  | cons t0 l ih =>
    intro dapps ht
    rw [List.foldlM_cons]
    rcases List.mem_cons.mp ht with rfl | ht2
    · rw [hfail dapps]
      rfl
    · cases ha : applyTagged dec dapps t0 with
      | none => rfl
      | some s =>
        exact ih s ht2

/-- C6 (amended): in `listProposals` a log entry whose decode fails is
dropped in isolation — removing it leaves the listing unchanged, so
every decodable entry is still returned; in `listDapps`, by contrast,
there is no per-entry guard around `decodeEventLog`: one undecodable
merged event aborts the whole listing, which returns no rows at all. -/
theorem decode_failure_per_entry_vs_abort :
    (∀ (decode : RawLog → Option ProposalCreatedArgs)
      (readState : Nat → Option Nat) (logs1 logs2 : List RawLog)
      (bad : RawLog), decode bad = none →
        listProposals decode readState (logs1 ++ bad :: logs2) =
          listProposals decode readState (logs1 ++ logs2)) ∧
    (∀ (dec : RegistryDecoder) (p u m pa un de : List RawLog)
      (t : TaggedLog), t ∈ mergedLogs p u m pa un de →
        taggedDappId dec t = none →
        listDapps dec p u m pa un de = none) := by
  constructor
  · intro decode readState logs1 logs2 bad hbad
    unfold listProposals listProposalsRows
    have hdrop : decodeProposalRow decode readState bad = none := by
      unfold decodeProposalRow
      rw [hbad]
    simp only [List.filterMap_append, List.filterMap_cons, hdrop]
  · intro dec p u m pa un de t ht hfail
    unfold listDapps
    rw [foldlM_applyTagged_none dec t (applyTagged_none dec t hfail) _ _ ht]
    rfl

/-- The concrete `ProposalCreated` decoder of the C6 witness: payload
tag `1` decodes, payload tag `99` is malformed. -/
def c6PropDecode : RawLog → Option ProposalCreatedArgs := fun l =>
  if l.payload = 1 then some ⟨5, "0xabc", "d", [], [], [], 10, 20⟩ else none

/-- Witness for the amended C6 at concrete inputs: dropping the
malformed proposal log leaves `listProposals` unchanged, and the
malformed registry log makes `listDapps` return `none`. -/
theorem decode_failure_per_entry_vs_abort_witness :
    (c6PropDecode ⟨101, 0, 99⟩ = none ∧
     listProposals c6PropDecode (fun _ => some 1)
        ([⟨100, 0, 1⟩] ++ ⟨101, 0, 99⟩ :: []) =
       listProposals c6PropDecode (fun _ => some 1) ([⟨100, 0, 1⟩] ++ [])) ∧
    ((⟨RegKind.published, ⟨101, 0, 99⟩⟩ : TaggedLog) ∈
        mergedLogs [⟨100, 0, 1⟩, ⟨101, 0, 99⟩] [] [] [] [] [] ∧
     taggedDappId c6Dec ⟨RegKind.published, ⟨101, 0, 99⟩⟩ = none ∧
     listDapps c6Dec [⟨100, 0, 1⟩, ⟨101, 0, 99⟩] [] [] [] [] [] = none) :=
  ⟨⟨by decide,
    decode_failure_per_entry_vs_abort.1 c6PropDecode (fun _ => some 1)
      [⟨100, 0, 1⟩] [] ⟨101, 0, 99⟩ (by decide)⟩,
   ⟨by decide, by decide,
    decode_failure_per_entry_vs_abort.2 c6Dec [⟨100, 0, 1⟩, ⟨101, 0, 99⟩]
      [] [] [] [] [] ⟨RegKind.published, ⟨101, 0, 99⟩⟩ (by decide)
      (by decide)⟩⟩

/-! ## Account vote scan and proposal runtime enricher
(`getAccountVoteEvents`, `loadProposalRuntimeData` of the governor
module) -/

/-- The three vote directions of the UI. -/
inductive VoteDirection where
  | voteFor
  | voteAgainst
  | voteAbstain
deriving DecidableEq, Repr

/-- `voteDirectionFromSupport`: `0 ↦ against`, `1 ↦ for`,
`2 ↦ abstain`, anything else `↦ null`. -/
def voteDirectionFromSupport (n : Nat) : Option VoteDirection :=
  if n = 0 then some VoteDirection.voteAgainst
  else if n = 1 then some VoteDirection.voteFor
  else if n = 2 then some VoteDirection.voteAbstain
  else none

/-- The two vote-cast event shapes scanned for the account. -/
inductive VoteKind where
  | cast
  | castWithParams
deriving DecidableEq, Repr

/-- Decoded `VoteCast`/`VoteCastWithParams` arguments (the fields the
scan consumes; the `typeof` guards of the source are vacuous on a
typed decode). -/
structure VoteArgs where
  proposalId : Nat
  support : Nat
  weight : Nat
deriving DecidableEq, Repr

/-- The two strict `decodeEventLog` calls of the vote scan. -/
structure VoteDecoder where
  plainCast : RawLog → Option VoteArgs
  paramsCast : RawLog → Option VoteArgs

/-- A vote log tagged with its event shape. -/
structure TaggedVoteLog where
  kind : VoteKind
  log : RawLog
deriving DecidableEq, Repr

/-- `AccountVoteEvent` of the governor module. -/
structure AccountVoteEvent where
  proposalId : Nat
  support : Option VoteDirection
  weight : Nat
  blockNumber : Nat
  logIndex : Nat
deriving DecidableEq, Repr

/-- Decode one tagged vote log (`catch continue` is `none`). -/
def decodeVoteLog (dec : VoteDecoder) (t : TaggedVoteLog) :
    Option AccountVoteEvent :=
  match (match t.kind with
    | VoteKind.cast => dec.plainCast t.log
    | VoteKind.castWithParams => dec.paramsCast t.log) with
  | none => none
  | some a => some ⟨a.proposalId, voteDirectionFromSupport a.support,
      a.weight, t.log.blockNumber, t.log.logIndex⟩

/-- The strictly-greater `(blockNumber, logIndex)` test of the
last-writer-wins upsert. -/
def votePairGT (e prev : AccountVoteEvent) : Bool :=
  e.blockNumber > prev.blockNumber ∨
    (e.blockNumber = prev.blockNumber ∧ e.logIndex > prev.logIndex)

/-- One step of the `out` map construction: keep the event with the
strictly greater chain position. -/
def upsertVote (out : List (Nat × AccountVoteEvent))
    (e : AccountVoteEvent) : List (Nat × AccountVoteEvent) :=
  match mapGet out e.proposalId with
  | none => mapSet out e.proposalId e
  | some prev =>
    if votePairGT e prev then mapSet out e.proposalId e else out

/-- The `all` list: plain casts first, parameterized casts second,
exactly as the source concatenates the two fetched streams. -/
def allVoteLogs (castLogs paramsLogs : List RawLog) : List TaggedVoteLog :=
  castLogs.map (TaggedVoteLog.mk VoteKind.cast) ++
    paramsLogs.map (TaggedVoteLog.mk VoteKind.castWithParams)

/-- `getAccountVoteEvents`: fold the decodable events through the
last-writer-wins upsert keyed by `proposalId`. -/
def getAccountVoteEvents (dec : VoteDecoder)
    (castLogs paramsLogs : List RawLog) : List (Nat × AccountVoteEvent) :=
  (allVoteLogs castLogs paramsLogs).foldl
    (fun out t =>
      match decodeVoteLog dec t with
      | none => out
      | some e => upsertVote out e) []

/-- The decodable vote events for one proposal, in scan order. -/
def voteEventsFor (dec : VoteDecoder) (castLogs paramsLogs : List RawLog)
    (pid : Nat) : List AccountVoteEvent :=
  ((allVoteLogs castLogs paramsLogs).filterMap
    (decodeVoteLog dec)).filter fun e => e.proposalId == pid

theorem mapGet_append_single {α : Type} (m : List (Nat × α)) (k : Nat)
    (v : α) (h : ∀ p ∈ m, p.1 ≠ k) : mapGet (m ++ [(k, v)]) k = some v := by
  induction m with
  | nil => simp [mapGet]
  | cons p m ih =>
    rw [List.cons_append, mapGet, if_neg (h p (List.mem_cons_self _ _))]
    exact ih fun q hq => h q (List.mem_cons_of_mem _ hq)

theorem mapGet_append_single_other {α : Type} (m : List (Nat × α))
    (k : Nat) (v : α) (k2 : Nat) (hne : k2 ≠ k) :
    mapGet (m ++ [(k, v)]) k2 = mapGet m k2 := by
  induction m with
  | nil =>
    rw [List.nil_append, mapGet, mapGet]
    exact if_neg fun hk => hne hk.symm
  | cons p m ih =>
    rw [List.cons_append, mapGet, mapGet]
    by_cases hp : p.1 = k2
    · rw [if_pos hp, if_pos hp]
    · rw [if_neg hp, if_neg hp]
      exact ih

theorem mapGet_replace {α : Type} (m : List (Nat × α)) (k : Nat) (v : α)
    (h : (m.any fun p => p.1 == k) = true) :
    mapGet (m.map fun p => if (p.1 == k) = true then (k, v) else p) k =
      some v := by
  induction m with
  | nil => simp at h
  | cons p m ih =>
    rw [List.map_cons]
    by_cases hp : (p.1 == k) = true
    · rw [if_pos hp, mapGet, if_pos rfl]
    · rw [if_neg hp, mapGet, if_neg (by simpa using hp)]
      apply ih
      simp only [List.any_cons, Bool.or_eq_true] at h
      rcases h with h | h
      · exact absurd h hp
      · exact h

theorem mapGet_replace_other {α : Type} (m : List (Nat × α)) (k : Nat)
    (v : α) (k2 : Nat) (hne : k2 ≠ k) :
    mapGet (m.map fun p => if (p.1 == k) = true then (k, v) else p) k2 =
      mapGet m k2 := by
  induction m with
  | nil => rfl
  | cons p m ih =>
    rw [List.map_cons]
    by_cases hp : (p.1 == k) = true
    · have hpk : p.1 = k := eq_of_beq hp
      rw [if_pos hp, mapGet, mapGet, if_neg (by omega),
        if_neg (show ¬ (p.1 = k2) by omega)]
      exact ih
    · rw [if_neg hp, mapGet, mapGet]
      by_cases hp2 : p.1 = k2
      · rw [if_pos hp2, if_pos hp2]
      · rw [if_neg hp2, if_neg hp2]
        exact ih

theorem mapGet_mapSet_self {α : Type} (m : List (Nat × α)) (k : Nat)
    (v : α) : mapGet (mapSet m k v) k = some v := by
  unfold mapSet
  split
  · rename_i hany
    exact mapGet_replace m k v hany
  · rename_i hany
    apply mapGet_append_single
    intro p hp hpk
    exact hany (List.any_eq_true.mpr ⟨p, hp, by simp [hpk]⟩)

theorem mapGet_mapSet_other {α : Type} (m : List (Nat × α)) (k : Nat)
    (v : α) (k2 : Nat) (hne : k2 ≠ k) :
    mapGet (mapSet m k v) k2 = mapGet m k2 := by
  unfold mapSet
  split
  · exact mapGet_replace_other m k v k2 hne
  · exact mapGet_append_single_other m k v k2 hne

/-- The per-proposal evolution of the scan: fold the events for one
`proposalId` through the keep-strictly-greater rule. -/
def foldBest : Option AccountVoteEvent → List AccountVoteEvent →
    Option AccountVoteEvent
  | mv, [] => mv
  | none, e :: es => foldBest (some e) es
  | some prev, e :: es =>
    foldBest (some (if votePairGT e prev then e else prev)) es

/-- The upsert only touches the event's own key, where it applies the
keep-strictly-greater rule. -/
theorem mapGet_upsertVote (out : List (Nat × AccountVoteEvent))
    (e : AccountVoteEvent) (pid : Nat) :
    mapGet (upsertVote out e) pid =
      if e.proposalId = pid then
        (match mapGet out pid with
         | none => some e
         | some prev => some (if votePairGT e prev then e else prev))
      else mapGet out pid := by
  unfold upsertVote
  by_cases hpid : e.proposalId = pid
  · rw [if_pos hpid]
    subst hpid
    cases hg : mapGet out e.proposalId with
    | none =>
      dsimp only
      rw [mapGet_mapSet_self]
    | some prev =>
      dsimp only
      by_cases hgt : votePairGT e prev = true
      · rw [if_pos hgt, mapGet_mapSet_self, if_pos hgt]
      · rw [if_neg hgt, hg, if_neg hgt]
  · rw [if_neg hpid]
    cases hg : mapGet out e.proposalId with
    | none =>
      dsimp only
      exact mapGet_mapSet_other out e.proposalId e pid (fun h => hpid h.symm)
    | some prev =>
      dsimp only
      by_cases hgt : votePairGT e prev = true
      · rw [if_pos hgt]
        exact mapGet_mapSet_other out e.proposalId e pid (fun h => hpid h.symm)
      · rw [if_neg hgt]

/-- Projection of the scan fold onto one `proposalId`. -/
theorem foldl_votes_proj (dec : VoteDecoder) :
    ∀ (l : List TaggedVoteLog) (out : List (Nat × AccountVoteEvent))
      (pid : Nat),
      mapGet (l.foldl (fun out t =>
        match decodeVoteLog dec t with
        | none => out
        | some e => upsertVote out e) out) pid =
      foldBest (mapGet out pid)
        ((l.filterMap (decodeVoteLog dec)).filter
          fun e => e.proposalId == pid) := by
  intro l
  induction l with
  | nil =>
    intro out pid
    simp only [List.foldl_nil, List.filterMap_nil, List.filter_nil, foldBest]
  | cons t l ih =>
    intro out pid
    rw [List.foldl_cons, List.filterMap_cons]
    cases hd : decodeVoteLog dec t with
    | none => exact ih out pid
    | some e =>
      rw [List.filter_cons]
      by_cases hpid : (e.proposalId == pid) = true
      · have hpe : e.proposalId = pid := eq_of_beq hpid
        rw [if_pos hpid, ih (upsertVote out e) pid, mapGet_upsertVote,
          if_pos hpe]
        cases hg : mapGet out pid with
        | none => rfl
        | some prev => rfl
      · have hpe : e.proposalId ≠ pid := fun h => hpid (by simp [h])
        rw [if_neg hpid, ih (upsertVote out e) pid, mapGet_upsertVote,
          if_neg hpe]

/-- The scan's resulting entry for one `proposalId` is the fold of its
decodable events through the keep-strictly-greater rule. -/
theorem mapGet_getAccountVoteEvents (dec : VoteDecoder)
    (castLogs paramsLogs : List RawLog) (pid : Nat) :
    mapGet (getAccountVoteEvents dec castLogs paramsLogs) pid =
      foldBest none (voteEventsFor dec castLogs paramsLogs pid) := by
  unfold getAccountVoteEvents voteEventsFor
  rw [foldl_votes_proj]
  rfl

theorem votePairGT_irrefl (e : AccountVoteEvent) :
    votePairGT e e = false := by
  simp [votePairGT]

theorem votePairGT_asymm (a b : AccountVoteEvent)
    (h : votePairGT a b = true) : votePairGT b a = false := by
  simp only [votePairGT, decide_eq_true_eq] at h
  simp only [votePairGT, decide_eq_false_iff_not]
  omega

/-- When one event strictly dominates every other event of the list in
`(blockNumber, logIndex)`, the fold returns exactly that event. -/
theorem foldBest_strict_max :
    ∀ (evs : List AccountVoteEvent) (mv : Option AccountVoteEvent)
      (estar : AccountVoteEvent),
      (estar ∈ evs ∨ mv = some estar) →
      (∀ e ∈ evs, e = estar ∨ votePairGT estar e = true) →
      (∀ p, mv = some p → p = estar ∨ votePairGT estar p = true) →
      foldBest mv evs = some estar := by
  intro evs
  induction evs with
  | nil =>
    intro mv estar hmem hmax hmv
    rcases hmem with hmem | hmem
    · cases hmem
    · rw [hmem]
      rfl
  | cons e es ih =>
    intro mv estar hmem hmax hmv
    cases mv with
    | none =>
      rw [foldBest]
      apply ih (some e) estar
      · rcases List.mem_cons.mp (hmem.resolve_right (by intro h; cases h))
          with rfl | h
        · exact Or.inr rfl
        · exact Or.inl h
      · exact fun x hx => hmax x (List.mem_cons_of_mem _ hx)
      · intro p hp
        cases hp
        exact hmax e (List.mem_cons_self _ _)
    | some prev =>
      rw [foldBest]
      apply ih (some (if votePairGT e prev then e else prev)) estar
      · rcases hmem with hmem | hmem
        · rcases List.mem_cons.mp hmem with rfl | h
          · -- estar = e; show it survives the head step or sits in es
            rcases hmv prev rfl with rfl | hgt
            · -- prev = estar = e
              rw [votePairGT_irrefl]
              exact Or.inr rfl
            · rw [if_pos]
              · exact Or.inr rfl
              · exact hgt
          · exact Or.inl h
        · -- mv = some estar, so prev = estar
          have : prev = estar := by cases hmem; rfl
          subst this
          rcases hmax e (List.mem_cons_self _ _) with rfl | hgt
          · rw [votePairGT_irrefl]
            exact Or.inr rfl
          · rw [if_neg]
            · exact Or.inr rfl
            · rw [votePairGT_asymm prev e hgt]
              simp
      · exact fun x hx => hmax x (List.mem_cons_of_mem _ hx)
      · intro p hp
        by_cases hgt : votePairGT e prev = true
        · rw [if_pos hgt] at hp
          cases hp
          exact hmax e (List.mem_cons_self _ _)
        · rw [if_neg hgt] at hp
          cases hp
          exact hmv prev rfl

/-- The five authoritative per-proposal `readContract` calls of the
enricher; `none` models a rejected read. -/
structure GovernorReads where
  state : Nat → Option Nat
  snapshot : Nat → Option Nat
  deadline : Nat → Option Nat
  eta : Nat → Option Nat
  hasVoted : Nat → Option Bool

/-- `ProposalRuntimeInfo` of the governor module. -/
structure ProposalRuntimeInfo where
  proposalId : Nat
  state : String
  snapshotBlock : Nat
  deadlineBlock : Nat
  etaSeconds : Nat
  hasVoted : Bool
  voteDirection : Option VoteDirection
  voteWeight : Option Nat
deriving DecidableEq, Repr

/-- The degraded fallback record built only from the proposal's own
creation-time fields. -/
def fallbackRuntime (p : ProposalInfo) : ProposalRuntimeInfo :=
  ⟨p.proposalId, p.state, p.voteStart, p.voteEnd, 0, false, none, none⟩

/-- One entry of the enrichment batch: the five reads (a `Promise.all`
inside `try`, where `hasVoted` is only read when an account is
connected and otherwise resolves to `false`), the scanned-vote lookup,
and the gating of `voteDirection`/`voteWeight` on the authoritative
`hasVoted`; any failed read yields the fallback for this entry only. -/
def runtimeEntry (reads : GovernorReads) (accountPresent : Bool)
    (votes : List (Nat × AccountVoteEvent)) (p : ProposalInfo) :
    Nat × ProposalRuntimeInfo :=
  match reads.state p.proposalId, reads.snapshot p.proposalId,
      reads.deadline p.proposalId, reads.eta p.proposalId,
      (if accountPresent then reads.hasVoted p.proposalId
        else some false) with
  | some st, some sn, some dl, some eta, some hv =>
    (p.proposalId, ⟨p.proposalId, stateName st, sn, dl, eta, hv,
      if hv then (mapGet votes p.proposalId).bind (·.support) else none,
      if hv then (mapGet votes p.proposalId).map (·.weight) else none⟩)
  | _, _, _, _, _ => (p.proposalId, fallbackRuntime p)

/-- `ProposalRuntimeBundle` of the governor module. -/
structure ProposalRuntimeBundle where
  blockNumber : Nat
  blockTimestamp : Nat
  byProposalId : List (Nat × ProposalRuntimeInfo)
deriving DecidableEq, Repr

/-- `loadProposalRuntimeData`: one head-block read pair shared by the
batch, one account vote scan when an account is connected, then the
independent per-proposal entries (`Object.fromEntries` consumes the
entry list). -/
def loadProposalRuntimeData (reads : GovernorReads) (dec : VoteDecoder)
    (accountPresent : Bool) (castLogs paramsLogs : List RawLog)
    (proposals : List ProposalInfo) (blockNumber blockTimestamp : Nat) :
    ProposalRuntimeBundle :=
  let votes := if accountPresent then
    getAccountVoteEvents dec castLogs paramsLogs else []
  ⟨blockNumber, blockTimestamp,
    proposals.map (runtimeEntry reads accountPresent votes)⟩

/-- Every entry is either the fallback (some read failed) or the fully
enriched record of the five successful reads. -/
theorem runtimeEntry_cases (reads : GovernorReads) (accountPresent : Bool)
    (votes : List (Nat × AccountVoteEvent)) (p : ProposalInfo) :
    runtimeEntry reads accountPresent votes p =
      (p.proposalId, fallbackRuntime p) ∨
    (∃ st sn dl eta hv,
      reads.state p.proposalId = some st ∧
      reads.snapshot p.proposalId = some sn ∧
      reads.deadline p.proposalId = some dl ∧
      reads.eta p.proposalId = some eta ∧
      (if accountPresent then reads.hasVoted p.proposalId
        else some false) = some hv ∧
      runtimeEntry reads accountPresent votes p = (p.proposalId,
        ⟨p.proposalId, stateName st, sn, dl, eta, hv,
          if hv then (mapGet votes p.proposalId).bind (·.support) else none,
          if hv then (mapGet votes p.proposalId).map (·.weight)
            else none⟩)) := by
  unfold runtimeEntry
  cases hst : reads.state p.proposalId with
  | none => exact Or.inl rfl
  | some st =>
  cases hsn : reads.snapshot p.proposalId with
  | none => exact Or.inl rfl
  | some sn =>
  cases hdl : reads.deadline p.proposalId with
  | none => exact Or.inl rfl
  | some dl =>
  cases heta : reads.eta p.proposalId with
  | none => exact Or.inl rfl
  | some eta =>
  cases hhv : (if accountPresent then reads.hasVoted p.proposalId
      else some false) with
  | none => exact Or.inl rfl
  | some hv =>
    exact Or.inr ⟨st, sn, dl, eta, hv, rfl, rfl, rfl, rfl, rfl, rfl⟩

/-- A failed read produces exactly the fallback entry. -/
theorem runtimeEntry_fallback (reads : GovernorReads)
    (accountPresent : Bool) (votes : List (Nat × AccountVoteEvent))
    (p : ProposalInfo)
    (hfail : reads.state p.proposalId = none ∨
      reads.snapshot p.proposalId = none ∨
      reads.deadline p.proposalId = none ∨
      reads.eta p.proposalId = none ∨
      (accountPresent = true ∧ reads.hasVoted p.proposalId = none)) :
    runtimeEntry reads accountPresent votes p =
      (p.proposalId, fallbackRuntime p) := by
  rcases runtimeEntry_cases reads accountPresent votes p with h | h
  · exact h
  · exfalso
    obtain ⟨st, sn, dl, eta, hv, hst, hsn, hdl, heta, hhv, _⟩ := h
    rcases hfail with h | h | h | h | ⟨ha, h⟩
    · rw [h] at hst; cases hst
    · rw [h] at hsn; cases hsn
    · rw [h] at hdl; cases hdl
    · rw [h] at heta; cases heta
    · rw [ha, h] at hhv
      cases hhv

/-- C7: if any of the five authoritative reads fails for a proposal,
its entry is exactly the degraded record
`(state = creation state, snapshot = voteStart, deadline = voteEnd,
eta = 0, hasVoted = false, no direction, no weight)`; the batch still
produces its entry list as the independent per-proposal map — one
entry per proposal, every other entry untouched by this failure — and
the call as a whole does not fail (the function is total). -/
theorem enrichment_read_failure_fallback (reads : GovernorReads)
    (dec : VoteDecoder) (accountPresent : Bool)
    (castLogs paramsLogs : List RawLog) (proposals : List ProposalInfo)
    (bn bt : Nat) (p : ProposalInfo) (hp : p ∈ proposals)
    (hfail : reads.state p.proposalId = none ∨
      reads.snapshot p.proposalId = none ∨
      reads.deadline p.proposalId = none ∨
      reads.eta p.proposalId = none ∨
      (accountPresent = true ∧ reads.hasVoted p.proposalId = none)) :
    (loadProposalRuntimeData reads dec accountPresent castLogs paramsLogs
        proposals bn bt).byProposalId =
      proposals.map (runtimeEntry reads accountPresent
        (if accountPresent then getAccountVoteEvents dec castLogs paramsLogs
          else [])) ∧
    (p.proposalId, (⟨p.proposalId, p.state, p.voteStart, p.voteEnd, 0, false,
      none, none⟩ : ProposalRuntimeInfo)) ∈
      (loadProposalRuntimeData reads dec accountPresent castLogs paramsLogs
        proposals bn bt).byProposalId ∧
    (loadProposalRuntimeData reads dec accountPresent castLogs paramsLogs
      proposals bn bt).byProposalId.length = proposals.length := by
  refine ⟨rfl, ?_, by simp [loadProposalRuntimeData]⟩
  show (p.proposalId, fallbackRuntime p) ∈ proposals.map
    (runtimeEntry reads accountPresent
      (if accountPresent then getAccountVoteEvents dec castLogs paramsLogs
        else []))
  exact List.mem_map.mpr ⟨p, hp,
    runtimeEntry_fallback reads accountPresent _ p hfail⟩

/-- The concrete reads of the C7 witness: the `proposalEta` read
fails. -/
def c7Reads : GovernorReads where
  state := fun _ => some 1
  snapshot := fun _ => some 10
  deadline := fun _ => some 20
  eta := fun _ => none
  hasVoted := fun _ => some false

/-- The concrete proposal of the C7 witness. -/
def c7Prop : ProposalInfo :=
  ⟨5, "0xproposer", "demo", [], [], [], 100, 200, "Active"⟩

/-- The trivially failing vote decoder used by the enricher
witnesses. -/
def noVoteDec : VoteDecoder where
  plainCast := fun _ => none
  paramsCast := fun _ => none

/-- Witness for C7: a failing `proposalEta` read yields the fallback
entry built from `c7Prop`'s creation-time fields. -/
theorem enrichment_read_failure_fallback_witness :
    (c7Prop ∈ [c7Prop] ∧ c7Reads.eta c7Prop.proposalId = none) ∧
    ((5 : Nat), (⟨5, "Active", 100, 200, 0, false, none, none⟩ :
      ProposalRuntimeInfo)) ∈
      (loadProposalRuntimeData c7Reads noVoteDec false [] [] [c7Prop]
        50 1000).byProposalId :=
  ⟨⟨List.mem_singleton.mpr rfl, rfl⟩,
   (enrichment_read_failure_fallback c7Reads noVoteDec false [] [] [c7Prop]
     50 1000 c7Prop (List.mem_singleton.mpr rfl)
     (Or.inr (Or.inr (Or.inr (Or.inl rfl))))).2.1⟩

/-- C8: `voteDirection`/`voteWeight` are populated only when the
authoritative `hasVoted` read returned `true` (so only with a connected
account); and when `hasVoted` is `true` but the local scan found no
vote event for the proposal, the entry keeps `hasVoted = true` with
direction and weight absent. -/
theorem vote_fields_gated_by_hasVoted :
    (∀ (reads : GovernorReads) (dec : VoteDecoder) (accountPresent : Bool)
      (castLogs paramsLogs : List RawLog) (proposals : List ProposalInfo)
      (bn bt pid : Nat) (info : ProposalRuntimeInfo),
      (pid, info) ∈ (loadProposalRuntimeData reads dec accountPresent
        castLogs paramsLogs proposals bn bt).byProposalId →
      (info.voteDirection ≠ none ∨ info.voteWeight ≠ none) →
      info.hasVoted = true ∧ accountPresent = true ∧
        reads.hasVoted pid = some true) ∧
    (∀ (reads : GovernorReads) (dec : VoteDecoder)
      (castLogs paramsLogs : List RawLog) (proposals : List ProposalInfo)
      (bn bt : Nat) (p : ProposalInfo) (st sn dl eta : Nat),
      p ∈ proposals →
      reads.state p.proposalId = some st →
      reads.snapshot p.proposalId = some sn →
      reads.deadline p.proposalId = some dl →
      reads.eta p.proposalId = some eta →
      reads.hasVoted p.proposalId = some true →
      mapGet (getAccountVoteEvents dec castLogs paramsLogs)
        p.proposalId = none →
      (p.proposalId, (⟨p.proposalId, stateName st, sn, dl, eta, true, none,
        none⟩ : ProposalRuntimeInfo)) ∈
        (loadProposalRuntimeData reads dec true castLogs paramsLogs
          proposals bn bt).byProposalId) := by
  constructor
  · intro reads dec accountPresent castLogs paramsLogs proposals bn bt pid
      info hmem hpop
    have hmem2 : (pid, info) ∈ proposals.map (runtimeEntry reads
        accountPresent (if accountPresent then
          getAccountVoteEvents dec castLogs paramsLogs else [])) := hmem
    obtain ⟨q, hq, hentry⟩ := List.mem_map.mp hmem2
    rcases runtimeEntry_cases reads accountPresent
        (if accountPresent then getAccountVoteEvents dec castLogs paramsLogs
          else []) q with h | h
    · rw [h] at hentry
      have hinfo : info = fallbackRuntime q :=
        ((Prod.mk.injEq _ _ _ _ |>.mp hentry).2).symm
      rw [hinfo] at hpop
      rcases hpop with hpop | hpop <;> exact (hpop rfl).elim
    · obtain ⟨st, sn, dl, eta, hv, hst, hsn, hdl, heta, hhv, heq⟩ := h
      rw [heq] at hentry
      obtain ⟨hpid, hinfo⟩ := Prod.mk.injEq _ _ _ _ |>.mp hentry
      subst hpid
      rw [← hinfo] at hpop
      cases hv with
      | false => simp at hpop
      | true =>
        rw [← hinfo]
        refine ⟨rfl, ?_⟩
        cases haccount : accountPresent with
        | false =>
          rw [haccount] at hhv
          simp at hhv
        | true =>
          rw [haccount] at hhv
          rw [if_pos rfl] at hhv
          exact ⟨rfl, hhv⟩
  · intro reads dec castLogs paramsLogs proposals bn bt p st sn dl eta hp
      hst hsn hdl heta hhv hnone
    have heq : runtimeEntry reads true
        (getAccountVoteEvents dec castLogs paramsLogs) p =
        (p.proposalId, ⟨p.proposalId, stateName st, sn, dl, eta, true, none,
          none⟩) := by
      unfold runtimeEntry
      rw [hst, hsn, hdl, heta, if_pos rfl, hhv]
      dsimp only
      rw [hnone]
      rfl
    show (p.proposalId, (⟨p.proposalId, stateName st, sn, dl, eta, true,
      none, none⟩ : ProposalRuntimeInfo)) ∈ proposals.map
      (runtimeEntry reads true (getAccountVoteEvents dec castLogs paramsLogs))
    exact List.mem_map.mpr ⟨p, hp, heq⟩

/-- The reads of the C8 witness: all five reads succeed, `hasVoted`
authoritatively `true`. -/
def c8Reads : GovernorReads where
  state := fun _ => some 1
  snapshot := fun _ => some 10
  deadline := fun _ => some 20
  eta := fun _ => some 0
  hasVoted := fun _ => some true

/-- Witness for C8: with `hasVoted = true` and no locally scanned vote
event, the entry keeps `hasVoted = true` with absent direction and
weight — and, populated fields being absent here, the gating conjunct
applies vacuously at this same entry through its hypothesis form. -/
theorem vote_fields_gated_by_hasVoted_witness :
    (c7Prop ∈ [c7Prop] ∧ c8Reads.hasVoted c7Prop.proposalId = some true ∧
     mapGet (getAccountVoteEvents noVoteDec [] []) c7Prop.proposalId =
       none) ∧
    ((5 : Nat), (⟨5, "Active", 10, 20, 0, true, none, none⟩ :
      ProposalRuntimeInfo)) ∈
      (loadProposalRuntimeData c8Reads noVoteDec true [] [] [c7Prop]
        50 1000).byProposalId :=
  ⟨⟨List.mem_singleton.mpr rfl, rfl, rfl⟩,
   vote_fields_gated_by_hasVoted.2 c8Reads noVoteDec [] [] [c7Prop] 50 1000
     c7Prop 1 10 20 0 (List.mem_singleton.mpr rfl) rfl rfl rfl rfl rfl rfl⟩

/-- C3: when the authoritative `hasVoted` read is `true` and the
decodable vote events for the proposal contain an event `estar`
strictly dominating every other one in `(blockNumber, logIndex)` —
in particular whenever two or more decodable events exist with
pairwise distinct `(blockNumber, logIndex)` pairs, their maximum —
the enriched entry reports exactly `estar`'s support and weight. -/
theorem last_writer_wins_vote (reads : GovernorReads) (dec : VoteDecoder)
    (castLogs paramsLogs : List RawLog) (proposals : List ProposalInfo)
    (bn bt : Nat) (p : ProposalInfo) (st sn dl eta : Nat)
    (estar : AccountVoteEvent) (hp : p ∈ proposals)
    (hmem : estar ∈ voteEventsFor dec castLogs paramsLogs p.proposalId)
    (hmax : ∀ e ∈ voteEventsFor dec castLogs paramsLogs p.proposalId,
      e = estar ∨ votePairGT estar e = true)
    (hst : reads.state p.proposalId = some st)
    (hsn : reads.snapshot p.proposalId = some sn)
    (hdl : reads.deadline p.proposalId = some dl)
    (heta : reads.eta p.proposalId = some eta)
    (hhv : reads.hasVoted p.proposalId = some true) :
    ∃ info : ProposalRuntimeInfo,
      (p.proposalId, info) ∈ (loadProposalRuntimeData reads dec true
        castLogs paramsLogs proposals bn bt).byProposalId ∧
      info.hasVoted = true ∧ info.voteDirection = estar.support ∧
      info.voteWeight = some estar.weight := by
  have hvotes : mapGet (getAccountVoteEvents dec castLogs paramsLogs)
      p.proposalId = some estar := by
    rw [mapGet_getAccountVoteEvents]
    exact foldBest_strict_max _ none estar (Or.inl hmem) hmax
      (by intro q hq; cases hq)
  have heq : runtimeEntry reads true
      (getAccountVoteEvents dec castLogs paramsLogs) p =
      (p.proposalId, ⟨p.proposalId, stateName st, sn, dl, eta, true,
        estar.support, some estar.weight⟩) := by
    unfold runtimeEntry
    rw [hst, hsn, hdl, heta, if_pos rfl, hhv]
    dsimp only
    rw [hvotes]
    rfl
  refine ⟨⟨p.proposalId, stateName st, sn, dl, eta, true, estar.support,
    some estar.weight⟩, ?_, rfl, rfl, rfl⟩
  show _ ∈ proposals.map
    (runtimeEntry reads true (getAccountVoteEvents dec castLogs paramsLogs))
  exact List.mem_map.mpr ⟨p, hp, heq⟩

/-- The vote decoder of the C3 witness: two decodable plain casts for
proposal `5`, at chain positions `(10, 0)` (support `for`, weight 100)
and `(12, 3)` (support `against`, weight 90). -/
def c3Dec : VoteDecoder where
  plainCast := fun l =>
    if l.payload = 1 then some ⟨5, 1, 100⟩
    else if l.payload = 2 then some ⟨5, 0, 90⟩ else none
  paramsCast := fun _ => none

/-- The later (strictly greatest `(blockNumber, logIndex)`) vote event
of the C3 witness. -/
def c3Estar : AccountVoteEvent :=
  ⟨5, some VoteDirection.voteAgainst, 90, 12, 3⟩

/-- Witness for C3: of the two decodable vote events, the one at
`(12, 3)` wins, and the enrichment reports its direction (`against`)
and weight (90). -/
theorem last_writer_wins_vote_witness :
    (c7Prop ∈ [c7Prop] ∧
     c3Estar ∈ voteEventsFor c3Dec [⟨10, 0, 1⟩, ⟨12, 3, 2⟩] []
       c7Prop.proposalId ∧
     (∀ e ∈ voteEventsFor c3Dec [⟨10, 0, 1⟩, ⟨12, 3, 2⟩] []
       c7Prop.proposalId, e = c3Estar ∨ votePairGT c3Estar e = true) ∧
     c8Reads.hasVoted c7Prop.proposalId = some true) ∧
    (∃ info : ProposalRuntimeInfo,
      ((5 : Nat), info) ∈ (loadProposalRuntimeData c8Reads c3Dec true
        [⟨10, 0, 1⟩, ⟨12, 3, 2⟩] [] [c7Prop] 50 1000).byProposalId ∧
      info.hasVoted = true ∧ info.voteDirection = c3Estar.support ∧
      info.voteWeight = some c3Estar.weight) :=
  ⟨⟨List.mem_singleton.mpr rfl, by decide, by decide, rfl⟩,
   last_writer_wins_vote c8Reads c3Dec [⟨10, 0, 1⟩, ⟨12, 3, 2⟩] [] [c7Prop]
     50 1000 c7Prop 1 10 20 0 c3Estar (List.mem_singleton.mpr rfl)
     (by decide) (by decide) rfl rfl rfl rfl rfl⟩

/-! ## Bundle reference extractor (`extractProposalBundleRef`)

Walks the proposal's index-aligned `targets`/`calldatas` pairs,
skipping pairs whose target differs from the expected registry (when
one is given), decodes each candidate calldata against the registry
ABI, and returns the first decode against `publishDapp`/`upgradeDapp`
with a non-empty decoded content identifier; decode throws are caught
into a `continue`. -/

/-- The two governed registry actions. -/
inductive BundleAction where
  | publishDapp
  | upgradeDapp
deriving DecidableEq, Repr

/-- `ProposalBundleRef`. -/
structure ProposalBundleRef where
  action : BundleAction
  rootCid : String
  dappId : Option Nat := none
deriving DecidableEq, Repr

/-- The outcome of `decodeFunctionData` against the registry ABI:
failure (`none`, the caught throw), one of the two governed functions
carrying the argument positions the extractor reads (individually
optional, as the source guards each with `args?.[i]`), or some other
registry function. -/
inductive DecodedCall where
  | publishDapp (rootCid : Option (List Nat))
  | upgradeDapp (dappId : Option Nat) (rootCid : Option (List Nat))
  | other
deriving DecidableEq, Repr

/-- `decodeCidHex` of the extractor module: UTF-8 decode with
trailing-NUL strip; the `catch` branch returns `""` for an empty
payload and the hex rendering otherwise.  (The `!isHex` early return
cannot fire on an ABI-decoded `bytes` value.) -/
def decodeCidHex (bytes : List Nat) : String :=
  match utf8BytesToString bytes with
  | some s => stripTrailingNuls s
  | none => if bytes.length = 0 then "" else hexOfBytes bytes

/-- ASCII lowercasing of one character (the range
`String.prototype.toLowerCase` affects in a hex address string). -/
def charToLower (c : Char) : Char :=
  if 65 ≤ c.toNat ∧ c.toNat ≤ 90 then Char.ofNat (c.toNat + 32) else c

/-- The model of `address.toLowerCase()`. -/
def strToLower (s : String) : String := ⟨s.data.map charToLower⟩

/-- `sameAddress`: `false` when either side is absent, otherwise
case-insensitive comparison. -/
def sameAddress (a b : Option String) : Bool :=
  match a, b with
  | some a, some b => strToLower a == strToLower b
  | _, _ => false

/-- The loop body for one `(targets[i], calldatas[i])` pair; `none` is
`continue`. -/
def bundlePair (decodeFn : Nat → Option DecodedCall)
    (expectedRegistry : Option String) (target : Option String)
    (calldata : Nat) : Option ProposalBundleRef :=
  if expectedRegistry.isSome && !(sameAddress target expectedRegistry) then
    none
  else
    match decodeFn calldata with
    | none => none
    | some (DecodedCall.publishDapp rootCidHex) =>
      match rootCidHex with
      | none => none
      | some bytes =>
        if decodeCidHex bytes = "" then none
        else some ⟨BundleAction.publishDapp, decodeCidHex bytes, none⟩
    | some (DecodedCall.upgradeDapp dappId rootCidHex) =>
      match rootCidHex with
      | none => none
      | some bytes =>
        if decodeCidHex bytes = "" then none
        else some ⟨BundleAction.upgradeDapp, decodeCidHex bytes, dappId⟩
    | some DecodedCall.other => none

/-- The index-aligned `(targets[i], calldatas[i])` pairs over
`0 ≤ i < calldatas.length`, with a missing target (`targets` shorter)
as `none`. -/
def pairUp : List Nat → List String → List (Option String × Nat)
  | [], _ => []
  | c :: cs, [] => (none, c) :: pairUp cs []
  | c :: cs, t :: ts => (some t, c) :: pairUp cs ts

/-- The `for` loop: first pair yielding a reference wins; fall off the
end to `null`. -/
def extractLoop (decodeFn : Nat → Option DecodedCall)
    (expectedRegistry : Option String) :
    List (Option String × Nat) → Option ProposalBundleRef
  | [] => none
  | (t, c) :: rest =>
    match bundlePair decodeFn expectedRegistry t c with
    | some r => some r
    | none => extractLoop decodeFn expectedRegistry rest

/-- `extractProposalBundleRef`. -/
def extractProposalBundleRef (decodeFn : Nat → Option DecodedCall)
    (p : ProposalInfo) (expectedRegistry : Option String) :
    Option ProposalBundleRef :=
  extractLoop decodeFn expectedRegistry (pairUp p.calldatas p.targets)

theorem extractLoop_none (decodeFn : Nat → Option DecodedCall)
    (expectedRegistry : Option String) :
    ∀ l : List (Option String × Nat),
      (∀ pr ∈ l, bundlePair decodeFn expectedRegistry pr.1 pr.2 = none) →
      extractLoop decodeFn expectedRegistry l = none := by
  intro l
  induction l with
  | nil => intro _; rfl
  | cons pr rest ih =>
    intro h
    cases pr with
    | mk t c =>
      rw [extractLoop, h (t, c) (List.mem_cons_self _ _)]
      exact ih fun q hq => h q (List.mem_cons_of_mem _ hq)

theorem extractLoop_first (decodeFn : Nat → Option DecodedCall)
    (expectedRegistry : Option String) :
    ∀ (l : List (Option String × Nat)) (i : Nat) (hi : i < l.length)
      (r : ProposalBundleRef),
      bundlePair decodeFn expectedRegistry (l.get ⟨i, hi⟩).1
        (l.get ⟨i, hi⟩).2 = some r →
      (∀ (j : Nat) (hj : j < i),
        bundlePair decodeFn expectedRegistry
          (l.get ⟨j, by omega⟩).1 (l.get ⟨j, by omega⟩).2 = none) →
      extractLoop decodeFn expectedRegistry l = some r := by
  intro l
  induction l with
  | nil =>
    intro i hi
    cases hi
  | cons pr rest ih =>
    intro i hi r hsome hnone
    cases pr with
    | mk t c =>
      cases i with
      | zero =>
        have hsome2 : bundlePair decodeFn expectedRegistry t c = some r :=
          hsome
        rw [extractLoop, hsome2]
      | succ i =>
        have h0 : bundlePair decodeFn expectedRegistry t c = none :=
          hnone 0 (Nat.succ_pos i)
        rw [extractLoop, h0]
        exact ih i (by simpa using hi) r hsome
          fun j hj => hnone (j + 1) (by omega)

/-- C9: `extractProposalBundleRef` (a total function — a decode throw
is caught into a skip, so the call never throws) returns the reference
of the first index-ordered `targets`/`calldatas` pair whose loop body
succeeds — i.e. whose target matches the expected registry when one is
given and whose calldata decodes as `publishDapp` or `upgradeDapp` with
a non-empty decoded content identifier, per `bundlePair` — and returns
`none` when no pair yields such a decode. -/
theorem extractProposalBundleRef_first_match
    (decodeFn : Nat → Option DecodedCall) (p : ProposalInfo)
    (expectedRegistry : Option String) :
    ((∀ pr ∈ pairUp p.calldatas p.targets,
        bundlePair decodeFn expectedRegistry pr.1 pr.2 = none) →
      extractProposalBundleRef decodeFn p expectedRegistry = none) ∧
    (∀ (i : Nat) (hi : i < (pairUp p.calldatas p.targets).length)
      (r : ProposalBundleRef),
      bundlePair decodeFn expectedRegistry
        ((pairUp p.calldatas p.targets).get ⟨i, hi⟩).1
        ((pairUp p.calldatas p.targets).get ⟨i, hi⟩).2 = some r →
      (∀ (j : Nat) (hj : j < i),
        bundlePair decodeFn expectedRegistry
          ((pairUp p.calldatas p.targets).get ⟨j, by omega⟩).1
          ((pairUp p.calldatas p.targets).get ⟨j, by omega⟩).2 = none) →
      extractProposalBundleRef decodeFn p expectedRegistry = some r) :=
  ⟨fun h => extractLoop_none decodeFn expectedRegistry _ h,
   fun i hi r hsome hnone =>
     extractLoop_first decodeFn expectedRegistry _ i hi r hsome hnone⟩

/-- The calldata decoder of the C9 witness: calldata tag `1` decodes to
another registry function, tag `2` to a `publishDapp` with content
bytes `"bafyAAA"`, anything else throws. -/
def c9DecodeFn : Nat → Option DecodedCall := fun c =>
  if c = 1 then some DecodedCall.other
  else if c = 2 then
    some (DecodedCall.publishDapp (some (stringToUtf8 "bafyAAA")))
  else none

/-- The proposal of the C9 witness: two actions against the registry
(case-varied address spellings), the first decoding to a non-governed
function, the second to a publish. -/
def c9Prop : ProposalInfo :=
  ⟨9, "0xproposer", "demo", ["0xREG", "0xreg"], [0, 0], [1, 2], 100, 200,
    "Active"⟩

/-- Witness for C9: the first pair is skipped (decodes to a
non-governed function), the second yields the publish reference. -/
theorem extractProposalBundleRef_first_match_witness :
    (bundlePair c9DecodeFn (some "0xreg")
      ((pairUp c9Prop.calldatas c9Prop.targets).get ⟨1, by decide⟩).1
      ((pairUp c9Prop.calldatas c9Prop.targets).get ⟨1, by decide⟩).2 =
      some ⟨BundleAction.publishDapp, "bafyAAA", none⟩ ∧
     bundlePair c9DecodeFn (some "0xreg")
      ((pairUp c9Prop.calldatas c9Prop.targets).get ⟨0, by decide⟩).1
      ((pairUp c9Prop.calldatas c9Prop.targets).get ⟨0, by decide⟩).2 =
      none) ∧
    extractProposalBundleRef c9DecodeFn c9Prop (some "0xreg") =
      some ⟨BundleAction.publishDapp, "bafyAAA", none⟩ :=
  ⟨⟨by decide, by decide⟩,
   (extractProposalBundleRef_first_match c9DecodeFn c9Prop
     (some "0xreg")).2 1 (by decide) ⟨BundleAction.publishDapp, "bafyAAA",
       none⟩ (by decide)
     (fun j hj => by
       have hj0 : j = 0 := by omega
       subst hj0
       show bundlePair c9DecodeFn (some "0xreg")
         ((pairUp c9Prop.calldatas c9Prop.targets).get ⟨0, by decide⟩).1
         ((pairUp c9Prop.calldatas c9Prop.targets).get ⟨0, by decide⟩).2 =
         none
       decide)⟩

end Studio
